import Mathlib

/-!
Verification of the binary wire-format layer of the cs2-stars repository.

The JavaScript sources embedded here are `src/backend/SchemaResolver.js`
(the `ArmoryManager` class: BigInt-based varint codec, field reader,
recursive economy-item searches, purchase-body encoder, purchase settle
logic) and `src/backend/SessionManager.js` (the Number-based varint
reader, `skipByWireType`, `parseType6ObjectDataForStars` and
`findStarsInCache`).

Buffers are modelled as `List Nat` of byte values.  JavaScript `Number`
bitwise operators (`|`, `<<`, `>>`, `&`) work on 32-bit two's-complement
integers; they are modelled exactly by the `toInt32`/`jsOr`/`jsShl`/`jsShr`
helpers below.  `BigInt` arithmetic is exact and is modelled by `Nat`.
(`Number(bigint)` is modelled as the exact value; double rounding above
2^53 is not modelled, and no statement below depends on it.)

While-loops are modelled by fuel-indexed structural recursion.  For the
`ArmoryManager` functions a fuel of `buffer.length + 1` always suffices
because every loop iteration strictly advances the offset, so the
canonical wrappers are total descriptions of the JavaScript behaviour.
The `SessionManager` scan `findStarsInCache` genuinely fails to terminate
on some inputs (see the C3 theorems), so there the fuel-exhaustion value
`none` is kept observable: `some r` means the JavaScript loop terminates
with result `r`.
-/

/-! ## JavaScript 32-bit integer semantics -/

/-- ECMAScript ToUint32: value modulo 2^32, as a natural number. -/
def toUInt32 (i : Int) : Nat := (i % (4294967296 : Int)).toNat

/-- ECMAScript ToInt32: value modulo 2^32, reinterpreted as a signed
32-bit integer. -/
def toInt32 (i : Int) : Int :=
  let m := toUInt32 i
  if m < 2147483648 then (m : Int) else (m : Int) - 4294967296

/-- JavaScript `a << s` on Numbers: shift the 32-bit pattern of `a` left
by `s mod 32` and reinterpret as signed 32-bit. -/
def jsShl (a : Int) (s : Nat) : Int := toInt32 ((toUInt32 a <<< (s % 32) : Nat) : Int)

/-- JavaScript `a | b` on Numbers: bitwise or of the 32-bit patterns,
reinterpreted as signed 32-bit. -/
def jsOr (a b : Int) : Int := toInt32 ((Nat.lor (toUInt32 a) (toUInt32 b) : Nat) : Int)

/-- JavaScript `a >> s` on Numbers: sign-propagating right shift of the
32-bit value, i.e. flooring division by `2 ^ (s mod 32)`. -/
def jsShr (a : Int) (s : Nat) : Int := Int.fdiv (toInt32 a) ((2 : Int) ^ (s % 32))

/-- JavaScript `tag & 0x07`: the low three bits of the 32-bit pattern of
`tag`, which equal the euclidean remainder of `ToInt32(tag)` modulo 8. -/
def wireTypeOf (tag : Int) : Nat := ((toInt32 tag) % (8 : Int)).toNat

/-! ## Bit-manipulation helper lemmas -/

theorem lor_shiftLeft_of_lt {r k : Nat} (c : Nat) (h : r < 2 ^ k) :
    r ||| c <<< k = r + c * 2 ^ k := by
  rw [Nat.shiftLeft_eq, Nat.lor_comm, Nat.mul_comm c (2 ^ k),
    ← Nat.mul_add_lt_is_or h c, Nat.add_comm, Nat.mul_comm]

theorem shiftLeft_lor_distrib (a b s : Nat) :
    (a ||| b) <<< s = a <<< s ||| b <<< s := by
  refine Nat.eq_of_testBit_eq fun i => ?_
  simp [Nat.testBit_shiftLeft, Bool.and_or_distrib_left]

/-- Recombination of one varint step: the low 7 bits at shift `s` or-ed
with the rest at shift `s + 7` give the whole value at shift `s`. -/
theorem varint_chunk_lor (n s : Nat) :
    (n % 128) <<< s ||| (n / 128) <<< (s + 7) = n <<< s := by
  have h7 : (n / 128) <<< (s + 7) = ((n / 128) <<< 7) <<< s := by
    rw [Nat.add_comm s 7, Nat.shiftLeft_add]
  rw [h7, ← shiftLeft_lor_distrib]
  have hmod : n % 128 < 2 ^ 7 := by
    have h := Nat.mod_lt n (show (128 : Nat) > 0 by norm_num)
    simpa using h
  rw [lor_shiftLeft_of_lt (n / 128) hmod]
  have : n % 128 + n / 128 * 2 ^ 7 = n := by
    have := Nat.mod_add_div n 128
    omega
  rw [this]

theorem byte_lo_bits (n : Nat) : ((n &&& 127) ||| 128) &&& 127 = n &&& 127 := by
  rw [Nat.and_distrib_right, Nat.and_assoc]
  have h1 : (127 : Nat) &&& 127 = 127 := by decide
  have h2 : (128 : Nat) &&& 127 = 0 := by decide
  rw [h1, h2, Nat.or_zero]

theorem byte_cont_bit (n : Nat) : ((n &&& 127) ||| 128) &&& 128 = 128 := by
  rw [Nat.and_distrib_right, Nat.and_assoc]
  have h1 : (127 : Nat) &&& 128 = 0 := by decide
  have h2 : (128 : Nat) &&& 128 = 128 := by decide
  rw [h1, h2, Nat.and_zero, Nat.zero_or]

theorem small_and_127 {n : Nat} (h : n < 128) : n &&& 127 = n := by
  have h127 : (127 : Nat) = 2 ^ 7 - 1 := by norm_num
  rw [h127]
  exact Nat.and_pow_two_sub_one_of_lt_two_pow (by simpa using h)

theorem small_and_128 {n : Nat} (h : n < 128) : n &&& 128 = 0 := by
  have h128 : (128 : Nat) = 2 ^ 7 := by norm_num
  rw [h128, Nat.and_two_pow]
  have : n.testBit 7 = false := Nat.testBit_lt_two_pow (by simpa using h)
  simp [this]

theorem and_127_lt (n : Nat) : n &&& 127 < 128 := by
  have h127 : (127 : Nat) = 2 ^ 7 - 1 := by norm_num
  rw [h127, Nat.and_pow_two_sub_one_eq_mod]
  exact Nat.mod_lt _ (by norm_num)

namespace ArmoryManager

/-! ## ArmoryManager (SchemaResolver.js): BigInt varint codec -/

/-- Loop body of `ArmoryManager.readVarint(buffer, offset)`, iterating over
the bytes from `offset` (the list is `buffer.drop offset`; running off the
end of the buffer yields `null`).  `BigInt` accumulation is exact, so the
accumulator is a `Nat`; the returned pair is `(value, bytesRead)`. -/
def readVarintGo : List Nat → Nat → Nat → Option (Nat × Nat)
  | [], _, _ => none
  | b :: rest, shift, result =>
    let result2 := result ||| ((b &&& 127) <<< shift)
    if b &&& 128 = 0 then some (result2, 1)
    else
      match readVarintGo rest (shift + 7) result2 with
      | none => none
      | some (v, k) => some (v, k + 1)

/-- `ArmoryManager.readVarint(buffer, offset)`. -/
def readVarint (buffer : List Nat) (offset : Nat) : Option (Nat × Nat) :=
  readVarintGo (buffer.drop offset) 0 0

/-- Fueled body of `ArmoryManager.encodeVarint`; a fuel of `n` suffices
because the value shrinks by a factor of 128 each iteration. -/
def encodeVarintGo : Nat → Nat → List Nat
  | 0, x => [x]
  | fuel + 1, x =>
    if 128 ≤ x then ((x &&& 127) ||| 128) :: encodeVarintGo fuel (x >>> 7)
    else [x]

/-- `ArmoryManager.encodeVarint(n)`: little-endian base-128 groups with a
continuation bit on every byte except the last. -/
def encodeVarint (n : Nat) : List Nat := encodeVarintGo n n

theorem encodeVarintGo_irrel : ∀ f g x, x ≤ f → x ≤ g →
    encodeVarintGo f x = encodeVarintGo g x := by
  intro f
  induction f with
  | zero =>
    intro g x hf _
    interval_cases x
    cases g <;> simp [encodeVarintGo]
  | succ f ih =>
    intro g x hf hg
    cases g with
    | zero =>
      interval_cases x
      simp [encodeVarintGo]
    | succ g =>
      by_cases hx : 128 ≤ x
      · have hdiv : x >>> 7 ≤ f := by
          rw [Nat.shiftRight_eq_div_pow]
          have : x / 2 ^ 7 < x := Nat.div_lt_self (by omega) (by norm_num)
          omega
        have hdiv2 : x >>> 7 ≤ g := by
          rw [Nat.shiftRight_eq_div_pow]
          have : x / 2 ^ 7 < x := Nat.div_lt_self (by omega) (by norm_num)
          omega
        simp only [encodeVarintGo, if_pos hx]
        rw [ih g (x >>> 7) hdiv hdiv2]
      · simp [encodeVarintGo, hx]

/-- Unfolding equation for `encodeVarint` matching the source loop. -/
theorem encodeVarint_eq (n : Nat) :
    encodeVarint n =
      if 128 ≤ n then ((n &&& 127) ||| 128) :: encodeVarint (n >>> 7)
      else [n] := by
  by_cases h : 128 ≤ n
  · have hpos : n ≠ 0 := by omega
    obtain ⟨m, rfl⟩ : ∃ m, n = m + 1 := ⟨n - 1, by omega⟩
    simp only [encodeVarint, encodeVarintGo, if_pos h]
    congr 1
    refine encodeVarintGo_irrel _ _ _ ?_ ?_
    · rw [Nat.shiftRight_eq_div_pow]
      have : (m + 1) / 2 ^ 7 < m + 1 := Nat.div_lt_self (by omega) (by norm_num)
      omega
    · exact Nat.le_refl _
  · cases n with
    | zero => simp [encodeVarint, encodeVarintGo]
    | succ m => simp [encodeVarint, encodeVarintGo, h]

theorem encodeVarint_length_pos (n : Nat) : 0 < (encodeVarint n).length := by
  rw [encodeVarint_eq]
  by_cases h : 128 ≤ n <;> simp [h]

/-- Round trip at the accumulator level: decoding the encoding of `n`
(followed by anything) or-s `n <<< shift` into the accumulator and
consumes exactly the encoded bytes. -/
theorem readVarintGo_encode (n : Nat) : ∀ (rest : List Nat) (shift acc : Nat),
    readVarintGo (encodeVarint n ++ rest) shift acc =
      some (acc ||| n <<< shift, (encodeVarint n).length) := by
  induction n using Nat.strong_induction_on with
  | _ n ih =>
    intro rest shift acc
    rw [encodeVarint_eq]
    by_cases h : 128 ≤ n
    · have hlt : n >>> 7 < n := by
        rw [Nat.shiftRight_eq_div_pow]
        exact Nat.div_lt_self (by omega) (by norm_num)
      simp only [if_pos h, List.cons_append, readVarintGo, byte_lo_bits, byte_cont_bit]
      rw [if_neg (by norm_num : ¬(128 = 0))]
      rw [ih (n >>> 7) hlt rest (shift + 7) (acc ||| (n &&& 127) <<< shift)]
      have hmod : n &&& 127 = n % 128 := by
        have h127 : (127 : Nat) = 2 ^ 7 - 1 := by norm_num
        rw [h127, Nat.and_pow_two_sub_one_eq_mod]
      have hdiv : n >>> 7 = n / 128 := by
        rw [Nat.shiftRight_eq_div_pow]
      rw [hmod, hdiv, Nat.lor_assoc, varint_chunk_lor]
      simp [Nat.add_comm]
    · have hsm : n < 128 := by omega
      simp only [if_neg h, List.cons_append, readVarintGo, small_and_127 hsm,
        small_and_128 hsm]
      simp

/-- `decode(encode(n)) = n` for the BigInt codec, consuming the whole
buffer. -/
theorem readVarint_encodeVarint (n : Nat) :
    readVarint (encodeVarint n) 0 = some (n, (encodeVarint n).length) := by
  have h := readVarintGo_encode n [] 0 0
  simpa [readVarint] using h

/-! ## ArmoryManager: wire-field reader -/

/-- The `value` slot of a decoded field: a `BigInt` for wire type 0, a
`Buffer` slice for wire type 2, `null` for the fixed-width types. -/
inductive FieldValue where
  | int (v : Nat)
  | bytes (bs : List Nat)
  | null
deriving DecidableEq

/-- The object returned by `ArmoryManager.readField`.  `fieldNumber` is
computed by the JavaScript `tag >> 3` (32-bit signed), hence an `Int`. -/
structure WireField where
  fieldNumber : Int
  wireType : Nat
  value : FieldValue
  nextOffset : Nat
deriving DecidableEq

/-- `ArmoryManager.readField(buffer, offset)`: read a varint tag, split it
into field number and wire type, then dispatch on the wire type.  Wire
type 2 is bounds-checked; unknown wire types yield `null`. -/
def readField (buffer : List Nat) (offset : Nat) : Option WireField :=
  match readVarint buffer offset with
  | none => none
  | some (tagVal, tagBytes) =>
    let tag : Int := (tagVal : Int)
    let fieldNumber := jsShr tag 3
    let wireType := wireTypeOf tag
    let cursor := offset + tagBytes
    if wireType = 0 then
      match readVarint buffer cursor with
      | none => none
      | some (v, vb) =>
        some ⟨fieldNumber, wireType, .int v, cursor + vb⟩
    else if wireType = 2 then
      match readVarint buffer cursor with
      | none => none
      | some (l, lb) =>
        let start := cursor + lb
        let stop := start + l
        if stop > buffer.length then none
        else some ⟨fieldNumber, wireType, .bytes ((buffer.drop start).take l), stop⟩
    else if wireType = 5 then
      if cursor + 4 > buffer.length then none
      else some ⟨fieldNumber, wireType, .null, cursor + 4⟩
    else if wireType = 1 then
      if cursor + 8 > buffer.length then none
      else some ⟨fieldNumber, wireType, .null, cursor + 8⟩
    else none

/-- Loop of `ArmoryManager.findVarint(buffer, wantedField)`: scan
top-level fields, returning the value of the first varint field with the
wanted field number.  Wire type 0 always carries `.int`, so the `.int`
match is exhaustive in practice. -/
def findVarintGo : Nat → List Nat → Nat → Int → Option Nat
  | 0, _, _, _ => none
  | fuel + 1, buffer, offset, wanted =>
    if offset < buffer.length then
      match readField buffer offset with
      | none => none
      | some f =>
        if f.wireType = 0 ∧ f.fieldNumber = wanted then
          match f.value with
          | .int v => some v
          | _ => none
        else findVarintGo fuel buffer f.nextOffset wanted
    else none

/-- `ArmoryManager.findVarint(buffer, wantedField)`. -/
def findVarint (buffer : List Nat) (wanted : Int) : Option Nat :=
  findVarintGo (buffer.length + 1) buffer 0 wanted

/-! ## ArmoryManager: economy-item parsing -/

def hexDigit (n : Nat) : Char :=
  if n < 10 then Char.ofNat (48 + n) else Char.ofNat (87 + n)

/-- `buf.toString(hex)`: two lowercase hex digits per byte. -/
def bytesToHex (bs : List Nat) : String :=
  String.mk (bs.map (fun b => [hexDigit (b / 16 % 16), hexDigit (b % 16)])).flatten

/-- The `attr` object of `ArmoryManager.parseAttribute`. -/
structure EconAttr where
  def_index : Option Nat
  value_bytes : Option String
deriving DecidableEq

/-- Loop of `ArmoryManager.parseAttribute`: field 1 (varint) sets
`def_index`, field 3 (length-delimited) sets `value_bytes` (hex); later
occurrences overwrite earlier ones; a failed field read breaks out. -/
def parseAttributeGo : Nat → List Nat → Nat → EconAttr → EconAttr
  | 0, _, _, attr => attr
  | fuel + 1, buffer, offset, attr =>
    if offset < buffer.length then
      match readField buffer offset with
      | none => attr
      | some f =>
        let attr1 :=
          match f.value with
          | .int v => if f.fieldNumber = 1 ∧ f.wireType = 0 then { attr with def_index := some v } else attr
          | _ => attr
        let attr2 :=
          match f.value with
          | .bytes bs =>
            if f.fieldNumber = 3 ∧ f.wireType = 2 then { attr1 with value_bytes := some (bytesToHex bs) } else attr1
          | _ => attr1
        parseAttributeGo fuel buffer f.nextOffset attr2
    else attr

/-- `ArmoryManager.parseAttribute(buffer)`: returns the attribute when
`def_index` was set (zero included), else `null`. -/
def parseAttribute (buffer : List Nat) : Option EconAttr :=
  let attr := parseAttributeGo (buffer.length + 1) buffer 0 ⟨none, none⟩
  match attr.def_index with
  | some _ => some attr
  | none => none

/-- The `item` object of `ArmoryManager.parseCSOEconItem`; `attrs` models
the JavaScript `attribute` array (`attribute` is a Lean keyword). -/
structure EconItem where
  def_index : Option Nat
  attrs : List EconAttr
deriving DecidableEq

/-- JavaScript truthiness of `item.def_index` (`null` and `0` are falsy). -/
def defIndexTruthy (item : EconItem) : Bool :=
  match item.def_index with
  | some d => d != 0
  | none => false

/-- Loop of `ArmoryManager.parseCSOEconItem`: field 4 (varint) sets
`def_index`, each field 12 (length-delimited) is parsed as an attribute
and appended when the parse succeeds. -/
def parseCSOEconItemGo : Nat → List Nat → Nat → EconItem → EconItem
  | 0, _, _, item => item
  | fuel + 1, buffer, offset, item =>
    if offset < buffer.length then
      match readField buffer offset with
      | none => item
      | some f =>
        let item1 :=
          match f.value with
          | .int v => if f.fieldNumber = 4 ∧ f.wireType = 0 then { item with def_index := some v } else item
          | _ => item
        let item2 :=
          match f.value with
          | .bytes bs =>
            if f.fieldNumber = 12 ∧ f.wireType = 2 then
              match parseAttribute bs with
              | some attr => { item1 with attrs := item1.attrs ++ [attr] }
              | none => item1
            else item1
          | _ => item1
        parseCSOEconItemGo fuel buffer f.nextOffset item2
    else item

/-- `ArmoryManager.parseCSOEconItem(buffer)`: returns the item only when
`item.def_index` is truthy (set and nonzero). -/
def parseCSOEconItem (buffer : List Nat) : Option EconItem :=
  let item := parseCSOEconItemGo (buffer.length + 1) buffer 0 ⟨none, []⟩
  if defIndexTruthy item then some item else none

/-! ## ArmoryManager: recursive deep searches -/

/-- Loop of `ArmoryManager.findDefIndexDeep`: scan top-level fields and
recurse (via `recurse`) into every nonempty length-delimited field; a
positive inner result short-circuits; a failed field read returns `null`. -/
def findDefIndexDeepGo (recurse : List Nat → Option Nat) :
    Nat → List Nat → Nat → Option Nat
  | 0, _, _ => none
  | fuel + 1, buffer, offset =>
    if offset < buffer.length then
      match readField buffer offset with
      | none => none
      | some f =>
        match f.value with
        | .bytes bs =>
          if f.wireType = 2 ∧ 0 < bs.length then
            match recurse bs with
            | some inner =>
              if 0 < inner then some inner
              else findDefIndexDeepGo recurse fuel buffer f.nextOffset
            | none => findDefIndexDeepGo recurse fuel buffer f.nextOffset
          else findDefIndexDeepGo recurse fuel buffer f.nextOffset
        | _ => findDefIndexDeepGo recurse fuel buffer f.nextOffset
    else none

/-- Fueled `ArmoryManager.findDefIndexDeep`: try a direct top-level
`findVarint(buffer, 4)` (accepted only when positive), then recurse into
length-delimited fields.  Each descent is into a strictly smaller slice
(see `readField_bytes_length_lt`), so a fuel of `buffer.length + 1`
always suffices. -/
def findDefIndexDeepF : Nat → List Nat → Option Nat
  | 0, _ => none
  | depth + 1, buffer =>
    match findVarint buffer 4 with
    | some direct =>
      if 0 < direct then some direct
      else findDefIndexDeepGo (findDefIndexDeepF depth) (buffer.length + 1) buffer 0
    | none => findDefIndexDeepGo (findDefIndexDeepF depth) (buffer.length + 1) buffer 0

/-- `ArmoryManager.findDefIndexDeep(buffer)`. -/
def findDefIndexDeep (buffer : List Nat) : Option Nat :=
  findDefIndexDeepF (buffer.length + 1) buffer

/-- Loop of `ArmoryManager.findCSOEconItem`: recurse into every nonempty
length-delimited field; an inner item with truthy `def_index`
short-circuits; a failed field read breaks (yielding `null`). -/
def findCSOEconItemGo (recurse : List Nat → Option EconItem) :
    Nat → List Nat → Nat → Option EconItem
  | 0, _, _ => none
  | fuel + 1, buffer, offset =>
    if offset < buffer.length then
      match readField buffer offset with
      | none => none
      | some f =>
        match f.value with
        | .bytes bs =>
          if f.wireType = 2 ∧ 0 < bs.length then
            match recurse bs with
            | some item =>
              if defIndexTruthy item then some item
              else findCSOEconItemGo recurse fuel buffer f.nextOffset
            | none => findCSOEconItemGo recurse fuel buffer f.nextOffset
          else findCSOEconItemGo recurse fuel buffer f.nextOffset
        | _ => findCSOEconItemGo recurse fuel buffer f.nextOffset
    else none

/-- Fueled `ArmoryManager.findCSOEconItem`: try a direct
`parseCSOEconItem`, else recurse into length-delimited fields. -/
def findCSOEconItemF : Nat → List Nat → Option EconItem
  | 0, _ => none
  | depth + 1, buffer =>
    match parseCSOEconItem buffer with
    | some direct =>
      if defIndexTruthy direct then some direct
      else findCSOEconItemGo (findCSOEconItemF depth) (buffer.length + 1) buffer 0
    | none => findCSOEconItemGo (findCSOEconItemF depth) (buffer.length + 1) buffer 0

/-- `ArmoryManager.findCSOEconItem(buffer)`. -/
def findCSOEconItem (buffer : List Nat) : Option EconItem :=
  findCSOEconItemF (buffer.length + 1) buffer

/-! ## ArmoryManager: purchase-body encoder -/

/-- `ArmoryManager.encodeRedeemBody(armoryId, stars, price)`: four
consecutive (tag, varint) pairs with field numbers 1..4 carrying the
values `[11, armoryId, stars, price]`; `tag = (fieldNumber << 3) | 0`. -/
def encodeRedeemBody (armoryId stars price : Nat) : List Nat :=
  let values := [11, armoryId, stars, price]
  ((List.range values.length).map
    (fun i => encodeVarint (((i + 1) <<< 3) ||| 0) ++ encodeVarint (values.getD i 0))).flatten

/-! ## ArmoryManager: safety lemmas -/

theorem readVarintGo_bytesRead : ∀ (l : List Nat) (shift acc v k : Nat),
    readVarintGo l shift acc = some (v, k) → 1 ≤ k ∧ k ≤ l.length := by
  intro l
  induction l with
  | nil => intro shift acc v k h; simp [readVarintGo] at h
  | cons b rest ih =>
    intro shift acc v k h
    simp only [readVarintGo] at h
    by_cases hb : b &&& 128 = 0
    · rw [if_pos hb] at h
      simp only [Option.some.injEq, Prod.mk.injEq] at h
      simp [← h.2]
    · rw [if_neg hb] at h
      cases hrec : readVarintGo rest (shift + 7) (acc ||| (b &&& 127) <<< shift) with
      | none => rw [hrec] at h; simp at h
      | some p =>
        rw [hrec] at h
        obtain ⟨v2, k2⟩ := p
        simp only [Option.some.injEq, Prod.mk.injEq] at h
        have := ih (shift + 7) (acc ||| (b &&& 127) <<< shift) v2 k2 hrec
        simp only [List.length_cons]
        omega

/-- A successful varint decode consumes at least one byte and never runs
past the end of the buffer. -/
theorem readVarint_bounds {buffer : List Nat} {offset v k : Nat}
    (h : readVarint buffer offset = some (v, k)) :
    1 ≤ k ∧ offset + k ≤ buffer.length := by
  have hb := readVarintGo_bytesRead (buffer.drop offset) 0 0 v k h
  rw [List.length_drop] at hb
  by_cases ho : offset ≤ buffer.length
  · omega
  · exfalso
    have : buffer.drop offset = [] := List.drop_eq_nil_of_le (by omega)
    rw [readVarint, this] at h
    simp [readVarintGo] at h

theorem readVarintGo_all_cont : ∀ (l : List Nat) (shift acc : Nat),
    (∀ b ∈ l, b &&& 128 ≠ 0) → readVarintGo l shift acc = none := by
  intro l
  induction l with
  | nil => intro _ _ _; rfl
  | cons b rest ih =>
    intro shift acc h
    have hb : b &&& 128 ≠ 0 := h b (by simp)
    simp only [readVarintGo, if_neg hb]
    rw [ih (shift + 7) _ (fun x hx => h x (by simp [hx]))]

/-- A varint that ends mid-continuation-sequence (every byte from the
offset onwards has the continuation bit set) decodes to `null`. -/
theorem readVarint_truncated {buffer : List Nat} {offset : Nat}
    (h : ∀ b ∈ buffer.drop offset, b &&& 128 ≠ 0) :
    readVarint buffer offset = none := by
  rw [readVarint]
  exact readVarintGo_all_cont _ 0 0 h

/-- Bounds for a successful field read: the offset strictly advances and
`nextOffset` never exceeds the buffer length; the wire type is one of
the four known ones; a wire-type-2 slice is strictly shorter than the
whole buffer. -/
theorem readField_bounds {buffer : List Nat} {offset : Nat} {f : WireField}
    (h : readField buffer offset = some f) :
    offset < f.nextOffset ∧ f.nextOffset ≤ buffer.length ∧
      (f.wireType = 0 ∨ f.wireType = 1 ∨ f.wireType = 2 ∨ f.wireType = 5) ∧
      (∀ bs, f.value = .bytes bs → bs.length < buffer.length) := by
  unfold readField at h
  cases htag : readVarint buffer offset with
  | none => rw [htag] at h; simp at h
  | some p =>
    obtain ⟨tagVal, tagBytes⟩ := p
    have htb := readVarint_bounds htag
    rw [htag] at h
    simp only at h
    by_cases h0 : wireTypeOf (tagVal : Int) = 0
    · rw [if_pos h0] at h
      cases hv : readVarint buffer (offset + tagBytes) with
      | none => rw [hv] at h; simp at h
      | some q =>
        obtain ⟨v, vb⟩ := q
        have hvb := readVarint_bounds hv
        rw [hv] at h
        simp only [Option.some.injEq] at h
        subst h
        dsimp
        refine ⟨by omega, by omega, by simp [h0], ?_⟩
        intro bs hbs
        simp at hbs
    · rw [if_neg h0] at h
      by_cases h2 : wireTypeOf (tagVal : Int) = 2
      · rw [if_pos h2] at h
        cases hl : readVarint buffer (offset + tagBytes) with
        | none => rw [hl] at h; simp at h
        | some q =>
          obtain ⟨l, lb⟩ := q
          have hlb := readVarint_bounds hl
          rw [hl] at h
          simp only at h
          by_cases hstop : offset + tagBytes + lb + l > buffer.length
          · rw [if_pos hstop] at h; simp at h
          · rw [if_neg hstop] at h
            simp only [Option.some.injEq] at h
            subst h
            dsimp
            refine ⟨by omega, by omega, by simp [h2], ?_⟩
            intro bs hbs
            simp only [FieldValue.bytes.injEq] at hbs
            subst hbs
            simp only [List.length_take, List.length_drop]
            omega
      · rw [if_neg h2] at h
        by_cases h5 : wireTypeOf (tagVal : Int) = 5
        · rw [if_pos h5] at h
          by_cases hc : offset + tagBytes + 4 > buffer.length
          · rw [if_pos hc] at h; simp at h
          · rw [if_neg hc] at h
            simp only [Option.some.injEq] at h
            subst h
            dsimp
            refine ⟨by omega, by omega, by simp [h5], ?_⟩
            intro bs hbs
            simp at hbs
        · rw [if_neg h5] at h
          by_cases h1 : wireTypeOf (tagVal : Int) = 1
          · rw [if_pos h1] at h
            by_cases hc : offset + tagBytes + 8 > buffer.length
            · rw [if_pos hc] at h; simp at h
            · rw [if_neg hc] at h
              simp only [Option.some.injEq] at h
              subst h
              dsimp
              refine ⟨by omega, by omega, by simp [h1], ?_⟩
              intro bs hbs
              simp at hbs
          · rw [if_neg h1] at h
            simp at h

end ArmoryManager

namespace SessionManager

/-! ## SessionManager (SessionManager.js): Number-based decoder

Offsets in this module are JavaScript Numbers and can become negative
(`offset += len.value` with a negative 32-bit length), so they are
modelled as `Int`.  Indexing a Buffer outside its range yields
`undefined`, modelled as `none`. -/

/-- `buffer[i]` on a Buffer: `undefined` (here `none`) outside the range. -/
def jsIndex (buffer : List Nat) (i : Int) : Option Nat :=
  if 0 ≤ i ∧ i < (buffer.length : Int) then some (buffer.getD i.toNat 0) else none

/-- `buffer.subarray(b, e)`: negative indices count from the end, both
ends are clamped to `[0, length]`, and an empty slice results when the
clamped end precedes the clamped start. -/
def jsSubarray (buffer : List Nat) (b e : Int) : List Nat :=
  let len : Int := buffer.length
  let bc := if b < 0 then max (len + b) 0 else min b len
  let ec := if e < 0 then max (len + e) 0 else min e len
  (buffer.drop bc.toNat).take (ec - bc).toNat

/-- Loop of the module-level `readVarint(buffer, offset)` in
`SessionManager.js`: Number accumulation through the 32-bit `|` and `<<`
operators.  An `undefined` byte (out-of-range index) makes both
`b & 0x7f` and `b & 0x80` evaluate to 0, so the loop breaks with the
accumulator so far.  One fuel unit per iteration; `buffer.length + 1`
always suffices. -/
def readVarintGo : Nat → List Nat → Int → Int → Nat → Nat → Option (Int × Nat)
  | 0, _, _, _, _, _ => none
  | fuel + 1, buffer, offset, result, shift, bytesRead =>
    if (buffer.length : Int) ≤ offset + bytesRead then none
    else
      match jsIndex buffer (offset + bytesRead) with
      | some b =>
        let result2 := jsOr result (jsShl ((b &&& 127 : Nat) : Int) shift)
        if b &&& 128 = 0 then some (result2, bytesRead + 1)
        else readVarintGo fuel buffer offset result2 (shift + 7) (bytesRead + 1)
      | none => some (jsOr result (jsShl 0 shift), bytesRead + 1)

/-- The module-level `readVarint(buffer, offset)` of `SessionManager.js`. -/
def readVarint (buffer : List Nat) (offset : Int) : Option (Int × Nat) :=
  readVarintGo (buffer.length + 1) buffer offset 0 0 0

/-- `skipByWireType(buf, offset, wireType)`: the returned offset for wire
type 2 adds the raw (possibly negative) decoded length with no bounds
check. -/
def skipByWireType (buf : List Nat) (offset : Int) (wireType : Nat) : Option Int :=
  if wireType = 0 then
    match readVarint buf offset with
    | none => none
    | some (_, vb) => some (offset + vb)
  else if wireType = 2 then
    match readVarint buf offset with
    | none => none
    | some (l, lb) => some (offset + lb + l)
  else if wireType = 5 then some (offset + 4)
  else if wireType = 1 then some (offset + 8)
  else none

/-- Loop of `parseType6ObjectDataForStars`: each varint field 2 whose
value lies in 0..5000 overwrites `stars`; other wire types are skipped;
any read failure breaks out, returning the `stars` seen so far.
`none` is fuel exhaustion (the JavaScript loop has not finished);
`some stars` is the loop result. -/
def parseType6Go : Nat → List Nat → Int → Option Int → Option (Option Int)
  | 0, _, _, _ => none
  | fuel + 1, objectData, offset, stars =>
    if offset < (objectData.length : Int) then
      match readVarint objectData offset with
      | none => some stars
      | some (tag, tb) =>
        let offset1 := offset + tb
        let fieldNumber := jsShr tag 3
        let wireType := wireTypeOf tag
        if wireType = 0 then
          match readVarint objectData offset1 with
          | none => some stars
          | some (v, vb) =>
            let offset2 := offset1 + vb
            let stars2 := if fieldNumber = 2 ∧ 0 ≤ v ∧ v ≤ 5000 then some v else stars
            parseType6Go fuel objectData offset2 stars2
        else
          match skipByWireType objectData offset1 wireType with
          | none => some stars
          | some next => parseType6Go fuel objectData next stars
    else some stars

/-- `parseType6ObjectDataForStars(objectData)` (fueled). -/
def parseType6ObjectDataForStars (fuel : Nat) (objectData : List Nat) : Option (Option Int) :=
  if objectData.length = 0 then some none
  else parseType6Go fuel objectData 0 none

/-- The code after the scan loop of `findStarsInCache`: if the tracked
type discriminator is 6 and a payload was captured (any Buffer is truthy,
even an empty one), parse it; otherwise the result is `null`. -/
def findStarsFinish (fuel : Nat) (foundTypeId : Option Int) (objectData : Option (List Nat)) :
    Option (Option Int) :=
  match foundTypeId, objectData with
  | some t, some d =>
    if t = 6 then parseType6ObjectDataForStars fuel d else some none
  | _, _ => some none

/-- Loop of `findStarsInCache`: track field 1 varints as the type
discriminator, capture the bytes of every length-delimited field 2/3 as
the candidate payload (later captures overwrite earlier ones), recurse
into every length-delimited field (an inner result short-circuits), and
skip other wire types.  For wire type 2 the length is added to the
offset unchecked, so the offset can go negative.  `none` is fuel
exhaustion; `some r` means the JavaScript call returns `r`. -/
def findStarsGo : Nat → List Nat → Int → Option Int → Option (List Nat) → Option (Option Int)
  | 0, _, _, _, _ => none
  | fuel + 1, buffer, offset, foundTypeId, objectData =>
    if offset < (buffer.length : Int) then
      match readVarint buffer offset with
      | none => findStarsFinish fuel foundTypeId objectData
      | some (tag, tb) =>
        let offset1 := offset + tb
        let fieldNumber := jsShr tag 3
        let wireType := wireTypeOf tag
        if wireType = 0 then
          match readVarint buffer offset1 with
          | none => findStarsFinish fuel foundTypeId objectData
          | some (v, vb) =>
            let offset2 := offset1 + vb
            let typeId2 := if fieldNumber = 1 then some v else foundTypeId
            findStarsGo fuel buffer offset2 typeId2 objectData
        else if wireType = 2 then
          match readVarint buffer offset1 with
          | none => findStarsFinish fuel foundTypeId objectData
          | some (l, lb) =>
            let offset2 := offset1 + lb
            let fieldData := jsSubarray buffer offset2 (offset2 + l)
            let offset3 := offset2 + l
            let objectData2 :=
              if fieldNumber = 2 ∨ fieldNumber = 3 then some fieldData else objectData
            match findStarsGo fuel fieldData 0 none none with
            | none => none
            | some (some r) => some (some r)
            | some none => findStarsGo fuel buffer offset3 foundTypeId objectData2
        else
          match skipByWireType buffer offset1 wireType with
          | none => findStarsFinish fuel foundTypeId objectData
          | some next => findStarsGo fuel buffer next foundTypeId objectData
    else findStarsFinish fuel foundTypeId objectData

/-- `findStarsInCache(buffer)` (fueled): `some r` exactly when the
JavaScript call terminates with result `r`. -/
def findStarsInCache (fuel : Nat) (buffer : List Nat) : Option (Option Int) :=
  findStarsGo fuel buffer 0 none none

end SessionManager

/-! ## Evaluation lemmas for the 32-bit helpers on small values -/

theorem toUInt32_ofNat {n : Nat} (h : n < 4294967296) : toUInt32 (n : Int) = n := by
  unfold toUInt32
  rw [Int.emod_eq_of_lt (by positivity) (by exact_mod_cast h)]
  exact Int.toNat_natCast n

theorem toInt32_ofNat {n : Nat} (h : n < 2147483648) : toInt32 (n : Int) = (n : Int) := by
  unfold toInt32
  rw [toUInt32_ofNat (by omega)]
  simp [h]

theorem jsShl_zero_left (s : Nat) : jsShl 0 s = 0 := by
  unfold jsShl
  have h0 : toUInt32 0 = 0 := by unfold toUInt32; rfl
  rw [h0, Nat.zero_shiftLeft]
  have : toInt32 ((0 : Nat) : Int) = 0 := toInt32_ofNat (by omega)
  simpa using this

theorem jsShl_small {c s : Nat} (hc : c <<< s < 2147483648) (hs : s < 32) :
    jsShl (c : Int) s = ((c <<< s : Nat) : Int) := by
  unfold jsShl
  have hcsmall : c < 4294967296 := by
    have : c ≤ c <<< s := by
      rw [Nat.shiftLeft_eq]
      calc c = c * 1 := by omega
        _ ≤ c * 2 ^ s := Nat.mul_le_mul_left c (Nat.one_le_two_pow)
    omega
  rw [toUInt32_ofNat hcsmall, Nat.mod_eq_of_lt hs]
  exact toInt32_ofNat hc

theorem jsOr_small {a b : Nat} (ha : a < 2147483648) (hb : b < 2147483648) :
    jsOr (a : Int) (b : Int) = ((a ||| b : Nat) : Int) := by
  unfold jsOr
  rw [toUInt32_ofNat (by omega), toUInt32_ofNat (by omega)]
  refine toInt32_ofNat ?_
  have h31 : (2147483648 : Nat) = 2 ^ 31 := by norm_num
  rw [h31] at ha hb ⊢
  exact Nat.or_lt_two_pow ha hb

theorem shiftLeft_le_shiftLeft_left {a b s : Nat} (h : a ≤ b) : a <<< s ≤ b <<< s := by
  rw [Nat.shiftLeft_eq, Nat.shiftLeft_eq]
  exact Nat.mul_le_mul_right _ h

/-- One accumulated varint chunk through the JavaScript 32-bit operators:
as long as everything stays below 2^31 the accumulation is exact. -/
theorem jsAccumChunk {r c shift : Nat} (hr : r < 2147483648)
    (hc : c <<< shift < 2147483648) :
    jsOr (r : Int) (jsShl (c : Int) shift) = ((r ||| c <<< shift : Nat) : Int) := by
  rcases Nat.eq_zero_or_pos c with hc0 | hcpos
  · subst hc0
    rw [show ((0 : Nat) : Int) = 0 from rfl, jsShl_zero_left]
    rw [show (0 : Int) = ((0 : Nat) : Int) from rfl]
    rw [jsOr_small hr (by omega)]
    simp [Nat.zero_shiftLeft]
  · have hs : shift < 32 := by
      by_contra hge
      have h2 : (2 : Nat) ^ 32 ≤ 2 ^ shift := Nat.pow_le_pow_right (by omega) (by omega)
      have : 2 ^ shift ≤ c <<< shift := by
        rw [Nat.shiftLeft_eq]
        calc (2 : Nat) ^ shift = 1 * 2 ^ shift := by omega
          _ ≤ c * 2 ^ shift := Nat.mul_le_mul_right _ hcpos
      omega
    rw [jsShl_small hc hs, jsOr_small hr hc]

/-! ## Round trip of the Number-based decoder below 2^31 -/

/-- Decoding `encodeVarint n` with the `SessionManager` Number-based
decoder, positioned right after `pre`, is exact whenever the accumulator
and the remaining value stay below 2^31. -/
theorem sessionReadVarintGo_encode (n : Nat) :
    ∀ (pre rest : List Nat) (fuel r shift k : Nat) (off : Int),
    (ArmoryManager.encodeVarint n).length ≤ fuel →
    r < 2147483648 → n <<< shift < 2147483648 →
    off + (k : Int) = (pre.length : Int) →
    SessionManager.readVarintGo fuel (pre ++ ArmoryManager.encodeVarint n ++ rest)
        off (r : Int) shift k =
      some (((r ||| n <<< shift : Nat) : Int), k + (ArmoryManager.encodeVarint n).length) := by
  induction n using Nat.strong_induction_on with
  | _ n ih =>
    intro pre rest fuel r shift k off hfuel hr hn hoff
    have hlen := ArmoryManager.encodeVarint_length_pos n
    obtain ⟨f, rfl⟩ : ∃ f, fuel = f + 1 := ⟨fuel - 1, by omega⟩
    set buf := pre ++ ArmoryManager.encodeVarint n ++ rest with hbuf
    have hbuflen : buf.length = pre.length + (ArmoryManager.encodeVarint n).length + rest.length := by
      simp [hbuf]
      omega
    have hguard : ¬ ((buf.length : Int) ≤ off + (k : Int)) := by
      rw [hoff, hbuflen]
      push_cast
      omega
    have hidx : SessionManager.jsIndex buf (off + (k : Int)) =
        some ((ArmoryManager.encodeVarint n).getD 0 0) := by
      unfold SessionManager.jsIndex
      rw [if_pos ⟨by rw [hoff]; positivity, by omega⟩]
      congr 1
      rw [hoff]
      rw [show ((pre.length : Int)).toNat = pre.length from rfl]
      rw [List.getD_eq_getElem?_getD, List.getD_eq_getElem?_getD, hbuf]
      rw [List.append_assoc]
      rw [List.getElem?_append_right (Nat.le_refl pre.length), Nat.sub_self]
      rcases hcons : ArmoryManager.encodeVarint n with _ | ⟨b, tl⟩
      · rw [hcons] at hlen; simp at hlen
      · simp
    by_cases h128 : 128 ≤ n
    · have hsplit : ArmoryManager.encodeVarint n =
          ((n &&& 127) ||| 128) :: ArmoryManager.encodeVarint (n >>> 7) := by
        rw [ArmoryManager.encodeVarint_eq, if_pos h128]
      have hfuel2 : (ArmoryManager.encodeVarint (n >>> 7)).length ≤ f := by
        rw [hsplit] at hfuel
        simp only [List.length_cons] at hfuel
        omega
      rw [hsplit] at hidx
      simp only [List.getD_cons_zero] at hidx
      simp only [SessionManager.readVarintGo, if_neg hguard, hidx]
      rw [byte_lo_bits, byte_cont_bit]
      rw [if_neg (by norm_num : ¬ (128 : Nat) = 0)]
      have hchunk : (n &&& 127) <<< shift < 2147483648 := by
        have h1 : (n &&& 127) <<< shift ≤ n <<< shift :=
          shiftLeft_le_shiftLeft_left Nat.and_le_left
        omega
      rw [jsAccumChunk hr hchunk]
      have hr2 : (r ||| (n &&& 127) <<< shift) < 2147483648 := by
        have h31 : (2147483648 : Nat) = 2 ^ 31 := by norm_num
        rw [h31] at hr hchunk ⊢
        exact Nat.or_lt_two_pow hr hchunk
      have hlt7 : n >>> 7 < n := by
        rw [Nat.shiftRight_eq_div_pow]
        exact Nat.div_lt_self (by omega) (by norm_num)
      have hn7 : (n >>> 7) <<< (shift + 7) < 2147483648 := by
        have hmono : (n >>> 7) <<< (shift + 7) ≤ n <<< shift := by
          rw [Nat.shiftRight_eq_div_pow, Nat.shiftLeft_eq, Nat.shiftLeft_eq, pow_add]
          calc n / 2 ^ 7 * (2 ^ shift * 2 ^ 7) = n / 2 ^ 7 * 2 ^ 7 * 2 ^ shift := by ring
            _ ≤ n * 2 ^ shift := Nat.mul_le_mul_right _ (Nat.div_mul_le_self n _)
        omega
      have hlist : buf = (pre ++ [(n &&& 127) ||| 128]) ++ ArmoryManager.encodeVarint (n >>> 7) ++ rest := by
        rw [hbuf, hsplit]
        simp
      rw [hlist]
      rw [ih (n >>> 7) hlt7 (pre ++ [(n &&& 127) ||| 128]) rest f
        (r ||| (n &&& 127) <<< shift) (shift + 7) (k + 1) off
        hfuel2 hr2 hn7 (by simp; omega)]
      have hval : (r ||| (n &&& 127) <<< shift) ||| (n >>> 7) <<< (shift + 7) = r ||| n <<< shift := by
        rw [Nat.lor_assoc]
        have hand : n &&& 127 = n % 128 := by
          have h127 : (127 : Nat) = 2 ^ 7 - 1 := by norm_num
          rw [h127, Nat.and_pow_two_sub_one_eq_mod]
        have hshr : n >>> 7 = n / 128 := by
          rw [Nat.shiftRight_eq_div_pow]
        rw [hand, hshr, varint_chunk_lor]
      rw [hval, hsplit]
      simp only [List.length_cons]
      congr 2
      omega
    · have hsm : n < 128 := by omega
      have hsingle : ArmoryManager.encodeVarint n = [n] := by
        rw [ArmoryManager.encodeVarint_eq, if_neg h128]
      rw [hsingle] at hidx
      simp only [List.getD_cons_zero] at hidx
      simp only [SessionManager.readVarintGo, if_neg hguard, hidx]
      rw [small_and_127 hsm, small_and_128 hsm]
      rw [if_pos rfl]
      rw [jsAccumChunk hr hn, hsingle]
      simp

/-- Round trip of the Number-based decoder for values below 2^31. -/
theorem sessionReadVarint_encode {n : Nat} (h : n < 2147483648) :
    SessionManager.readVarint (ArmoryManager.encodeVarint n) 0 =
      some ((n : Int), (ArmoryManager.encodeVarint n).length) := by
  rw [SessionManager.readVarint]
  have hmain := sessionReadVarintGo_encode n [] []
    ((ArmoryManager.encodeVarint n).length + 1) 0 0 0 0
    (by omega) (by omega) (by simpa using h) (by simp)
  simp only [List.nil_append, List.append_nil] at hmain
  simpa using hmain

namespace ArmoryManager

/-! ## ArmoryManager: properties of the searches -/

theorem defIndexTruthy_iff (item : EconItem) :
    defIndexTruthy item = true ↔ ∃ d, item.def_index = some d ∧ 0 < d := by
  unfold defIndexTruthy
  cases h : item.def_index with
  | none => simp
  | some d =>
    simp only [bne_iff_ne, ne_eq]
    constructor
    · intro hd; exact ⟨d, rfl, by omega⟩
    · rintro ⟨d2, hd2, hpos⟩
      rw [Option.some.injEq] at hd2
      omega

/-- Every item accepted by `parseCSOEconItem` has a set, nonzero
definition index. -/
theorem parseCSOEconItem_accepted {buffer : List Nat} {item : EconItem}
    (h : parseCSOEconItem buffer = some item) :
    ∃ d, item.def_index = some d ∧ 0 < d := by
  unfold parseCSOEconItem at h
  by_cases ht : defIndexTruthy (parseCSOEconItemGo (buffer.length + 1) buffer 0 ⟨none, []⟩) = true
  · rw [if_pos ht] at h
    rw [Option.some.injEq] at h
    subst h
    exact (defIndexTruthy_iff _).mp ht
  · rw [if_neg ht] at h
    simp at h

theorem findCSOEconItemGo_accepted (recurse : List Nat → Option EconItem) :
    ∀ (fuel : Nat) (buffer : List Nat) (offset : Nat) (item : EconItem),
    findCSOEconItemGo recurse fuel buffer offset = some item →
    ∃ d, item.def_index = some d ∧ 0 < d := by
  intro fuel
  induction fuel with
  | zero => intro buffer offset item h; simp [findCSOEconItemGo] at h
  | succ f ih =>
    intro buffer offset item h
    simp only [findCSOEconItemGo] at h
    by_cases hoff : offset < buffer.length
    · rw [if_pos hoff] at h
      cases hf : readField buffer offset with
      | none => rw [hf] at h; simp at h
      | some fld =>
        rw [hf] at h
        simp only at h
        cases hv : fld.value with
        | bytes bs =>
          rw [hv] at h
          simp only at h
          by_cases hc : fld.wireType = 2 ∧ 0 < bs.length
          · rw [if_pos hc] at h
            cases hr : recurse bs with
            | none => rw [hr] at h; simp only at h; exact ih buffer fld.nextOffset item h
            | some inner =>
              rw [hr] at h
              simp only at h
              by_cases hti : defIndexTruthy inner = true
              · rw [if_pos hti] at h
                rw [Option.some.injEq] at h
                subst h
                exact (defIndexTruthy_iff _).mp hti
              · rw [if_neg hti] at h
                exact ih buffer fld.nextOffset item h
          · rw [if_neg hc] at h
            exact ih buffer fld.nextOffset item h
        | int v => rw [hv] at h; simp only at h; exact ih buffer fld.nextOffset item h
        | null => rw [hv] at h; simp only at h; exact ih buffer fld.nextOffset item h
    · rw [if_neg hoff] at h
      simp at h

/-- Every item returned by the deep economy-item search has a set,
nonzero definition index (at any fuel). -/
theorem findCSOEconItemF_accepted : ∀ (depth : Nat) (buffer : List Nat) (item : EconItem),
    findCSOEconItemF depth buffer = some item →
    ∃ d, item.def_index = some d ∧ 0 < d := by
  intro depth
  induction depth with
  | zero => intro buffer item h; simp [findCSOEconItemF] at h
  | succ d ih =>
    intro buffer item h
    simp only [findCSOEconItemF] at h
    cases hp : parseCSOEconItem buffer with
    | none =>
      rw [hp] at h
      simp only at h
      exact findCSOEconItemGo_accepted _ _ _ _ _ h
    | some direct =>
      rw [hp] at h
      simp only at h
      by_cases ht : defIndexTruthy direct = true
      · rw [if_pos ht] at h
        rw [Option.some.injEq] at h
        subst h
        exact (defIndexTruthy_iff _).mp ht
      · rw [if_neg ht] at h
        exact findCSOEconItemGo_accepted _ _ _ _ _ h

theorem findDefIndexDeepGo_pos (recurse : List Nat → Option Nat) :
    ∀ (fuel : Nat) (buffer : List Nat) (offset : Nat) (d : Nat),
    findDefIndexDeepGo recurse fuel buffer offset = some d → 0 < d := by
  intro fuel
  induction fuel with
  | zero => intro buffer offset d h; simp [findDefIndexDeepGo] at h
  | succ f ih =>
    intro buffer offset d h
    simp only [findDefIndexDeepGo] at h
    by_cases hoff : offset < buffer.length
    · rw [if_pos hoff] at h
      cases hf : readField buffer offset with
      | none => rw [hf] at h; simp at h
      | some fld =>
        rw [hf] at h
        simp only at h
        cases hv : fld.value with
        | bytes bs =>
          rw [hv] at h
          simp only at h
          by_cases hc : fld.wireType = 2 ∧ 0 < bs.length
          · rw [if_pos hc] at h
            cases hr : recurse bs with
            | none => rw [hr] at h; simp only at h; exact ih buffer fld.nextOffset d h
            | some inner =>
              rw [hr] at h
              simp only at h
              by_cases hpos : 0 < inner
              · rw [if_pos hpos] at h
                rw [Option.some.injEq] at h
                omega
              · rw [if_neg hpos] at h
                exact ih buffer fld.nextOffset d h
          · rw [if_neg hc] at h
            exact ih buffer fld.nextOffset d h
        | int v => rw [hv] at h; simp only at h; exact ih buffer fld.nextOffset d h
        | null => rw [hv] at h; simp only at h; exact ih buffer fld.nextOffset d h
    · rw [if_neg hoff] at h
      simp at h

/-- The deep definition-index search only ever returns strictly positive
values (at any fuel). -/
theorem findDefIndexDeepF_pos : ∀ (depth : Nat) (buffer : List Nat) (d : Nat),
    findDefIndexDeepF depth buffer = some d → 0 < d := by
  intro depth
  induction depth with
  | zero => intro buffer d h; simp [findDefIndexDeepF] at h
  | succ dep ih =>
    intro buffer d h
    simp only [findDefIndexDeepF] at h
    cases hv : findVarint buffer 4 with
    | none =>
      rw [hv] at h
      simp only at h
      exact findDefIndexDeepGo_pos _ _ _ _ _ h
    | some direct =>
      rw [hv] at h
      simp only at h
      by_cases hpos : 0 < direct
      · rw [if_pos hpos] at h
        rw [Option.some.injEq] at h
        omega
      · rw [if_neg hpos] at h
        exact findDefIndexDeepGo_pos _ _ _ _ _ h

/-- A failed recursive descent only abandons that branch: the walk
resumes at the next sibling field. -/
theorem findDefIndexDeepGo_resume {recurse : List Nat → Option Nat}
    {fuel : Nat} {buffer bs : List Nat} {offset : Nat} {fld : WireField}
    (hoff : offset < buffer.length) (hf : readField buffer offset = some fld)
    (hw : fld.wireType = 2) (hv : fld.value = .bytes bs) (hne : 0 < bs.length)
    (hrec : recurse bs = none) :
    findDefIndexDeepGo recurse (fuel + 1) buffer offset =
      findDefIndexDeepGo recurse fuel buffer fld.nextOffset := by
  simp only [findDefIndexDeepGo, if_pos hoff, hf, hv, if_pos (And.intro hw hne), hrec]

/-- Same branch-abandonment property for the economy-item walk. -/
theorem findCSOEconItemGo_resume {recurse : List Nat → Option EconItem}
    {fuel : Nat} {buffer bs : List Nat} {offset : Nat} {fld : WireField}
    (hoff : offset < buffer.length) (hf : readField buffer offset = some fld)
    (hw : fld.wireType = 2) (hv : fld.value = .bytes bs) (hne : 0 < bs.length)
    (hrec : recurse bs = none) :
    findCSOEconItemGo recurse (fuel + 1) buffer offset =
      findCSOEconItemGo recurse fuel buffer fld.nextOffset := by
  simp only [findCSOEconItemGo, if_pos hoff, hf, hv, if_pos (And.intro hw hne), hrec]

end ArmoryManager

/-! ## Helpers for decoding small tags -/

theorem wireTypeOf_ofNat {t : Nat} (h : t < 2147483648) :
    wireTypeOf (t : Int) = t % 8 := by
  unfold wireTypeOf
  rw [toInt32_ofNat h]
  rw [show (8 : Int) = ((8 : Nat) : Int) from rfl, ← Int.natCast_mod]
  exact Int.toNat_natCast _

theorem jsShr_ofNat {t : Nat} (h : t < 2147483648) :
    jsShr (t : Int) 3 = ((t / 8 : Nat) : Int) := by
  unfold jsShr
  rw [toInt32_ofNat h]
  rw [show ((3 : Nat) % 32) = 3 from rfl]
  rw [Int.fdiv_eq_ediv _ (by norm_num)]
  rw [show ((2 : Int) ^ 3) = ((8 : Nat) : Int) from rfl]
  rw [← Int.natCast_div]

namespace ArmoryManager

/-- Reading a varint positioned right after `pre` recovers the encoded
value and its length. -/
theorem readVarint_at_append (pre rest : List Nat) (v : Nat) :
    readVarint (pre ++ encodeVarint v ++ rest) pre.length =
      some (v, (encodeVarint v).length) := by
  rw [readVarint, List.append_assoc, List.drop_left]
  rw [readVarintGo_encode v rest 0 0]
  simp

/-- Decoding one (single-byte tag, varint value) pair with `readField`:
for a tag below 128 with wire type bits 0 the reader returns a varint
field and advances past both the tag and the value. -/
theorem readField_tag_varint (pre rest : List Nat) (t v : Nat)
    (ht : t < 128) (hw : t % 8 = 0) :
    readField (pre ++ [t] ++ encodeVarint v ++ rest) pre.length =
      some ⟨((t / 8 : Nat) : Int), 0, .int v,
        pre.length + 1 + (encodeVarint v).length⟩ := by
  have htag : readVarint (pre ++ [t] ++ encodeVarint v ++ rest) pre.length =
      some (t, 1) := by
    have hsingle : encodeVarint t = [t] := by
      rw [encodeVarint_eq, if_neg (by omega)]
    have hbase := readVarint_at_append pre (encodeVarint v ++ rest) t
    rw [hsingle] at hbase
    simpa using hbase
  unfold readField
  rw [htag]
  simp only
  rw [wireTypeOf_ofNat (by omega), hw, jsShr_ofNat (by omega)]
  rw [if_pos rfl]
  have hval : readVarint (pre ++ [t] ++ encodeVarint v ++ rest) (pre.length + 1) =
      some (v, (encodeVarint v).length) := by
    have hbase := readVarint_at_append (pre ++ [t]) rest v
    simpa using hbase
  rw [hval]

/-- Normal form of the purchase body: four single-byte tags interleaved
with the four encoded values. -/
theorem encodeRedeemBody_eq (armoryId stars price : Nat) :
    encodeRedeemBody armoryId stars price =
      [8] ++ encodeVarint 11 ++ [16] ++ encodeVarint armoryId ++
      [24] ++ encodeVarint stars ++ [32] ++ encodeVarint price := by
  have h8 : encodeVarint (((0 + 1) <<< 3) ||| 0) = [8] := by decide
  have h16 : encodeVarint (((1 + 1) <<< 3) ||| 0) = [16] := by decide
  have h24 : encodeVarint (((2 + 1) <<< 3) ||| 0) = [24] := by decide
  have h32 : encodeVarint (((3 + 1) <<< 3) ||| 0) = [32] := by decide
  unfold encodeRedeemBody
  simp only [List.length_cons, List.length_nil]
  rw [show (List.range (0 + 1 + 1 + 1 + 1)) = [0, 1, 2, 3] from rfl]
  simp only [List.map_cons, List.map_nil, h8, h16, h24, h32]
  simp [List.flatten]

end ArmoryManager

namespace ArmoryManager

/-! ## ArmoryManager: purchase settle-once model

The asynchronous completion paths of `ArmoryManager.purchaseItem` (the
30 s timeout, `error`, `disconnected`, and `receivedFromGC`) all funnel
into the single `settle` closure, guarded by the mutable `settled` flag.
The single-threaded event loop delivers these callbacks sequentially, so
a run of the purchase is modelled as a fold of the completion events
over the settle state.  `cleanups` counts executions of the cleanup
block (listener removal, `gamesPlayed([])`, `logOff`). -/

inductive PurchaseEvent where
  | timeout
  | error (msg : String)
  | disconnected
  | receivedFromGC (appid : Nat) (msgType : Nat) (payload : List Nat)

/-- Resolution value of the purchase promise: `ok` carries the parsed
item, its definition index and `currentStars - itemPrice`; `err` carries
the rejection message. -/
inductive PurchaseOutcome where
  | ok (defIndex : Nat) (newStars : Int) (item : EconItem)
  | err (msg : String)
deriving DecidableEq

structure PurchaseState where
  settled : Bool
  cleanups : Nat
  outcome : Option PurchaseOutcome
deriving DecidableEq

/-- The `settle` closure: a second call is discarded by the `settled`
flag; the first call runs cleanup once and records the outcome. -/
def settle (st : PurchaseState) (o : PurchaseOutcome) : PurchaseState :=
  if st.settled then st
  else { settled := true, cleanups := st.cleanups + 1, outcome := some o }

/-- One completion event, as handled by the listeners registered in
`purchaseItem`.  A GC message for another app or with a non-matching
message type is ignored without settling (the listener returns early). -/
def processEvent (currentStars itemPrice : Nat) (st : PurchaseState)
    (e : PurchaseEvent) : PurchaseState :=
  match e with
  | .timeout => settle st (.err "Purchase timeout")
  | .error m => settle st (.err m)
  | .disconnected => settle st (.err "Disconnected")
  | .receivedFromGC appid msgType payload =>
    if appid ≠ 730 then st
    else if msgType ≠ 21 then st
    else
      match findCSOEconItem payload with
      | none => settle st (.err "Could not parse CSOEconItem")
      | some item =>
        if defIndexTruthy item then
          settle st (.ok (item.def_index.getD 0)
            ((currentStars : Int) - (itemPrice : Int)) item)
        else settle st (.err "Could not parse CSOEconItem")

/-- Whether an event reaches a `settle` call at all. -/
def triggersSettle : PurchaseEvent → Bool
  | .receivedFromGC appid msgType _ => appid == 730 && msgType == 21
  | _ => true

/-- The outcome an event would settle with. -/
def eventOutcome (currentStars itemPrice : Nat) : PurchaseEvent → PurchaseOutcome
  | .timeout => .err "Purchase timeout"
  | .error m => .err m
  | .disconnected => .err "Disconnected"
  | .receivedFromGC _ _ payload =>
    match findCSOEconItem payload with
    | none => .err "Could not parse CSOEconItem"
    | some item =>
      if defIndexTruthy item then
        .ok (item.def_index.getD 0) ((currentStars : Int) - (itemPrice : Int)) item
      else .err "Could not parse CSOEconItem"

def initialPurchaseState : PurchaseState := ⟨false, 0, none⟩

/-- The settle state after a sequence of completion events. -/
def runPurchase (currentStars itemPrice : Nat) (events : List PurchaseEvent) :
    PurchaseState :=
  events.foldl (processEvent currentStars itemPrice) initialPurchaseState

theorem processEvent_settled {cs ip : Nat} {st : PurchaseState} {e : PurchaseEvent}
    (h : st.settled = true) : processEvent cs ip st e = st := by
  have hs : ∀ o, settle st o = st := fun o => by
    unfold settle
    rw [if_pos h]
  cases e with
  | timeout => exact hs _
  | error m => exact hs _
  | disconnected => exact hs _
  | receivedFromGC appid msgType payload =>
    simp only [processEvent]
    by_cases ha : appid ≠ 730
    · rw [if_pos ha]
    · rw [if_neg ha]
      by_cases hm : msgType ≠ 21
      · rw [if_pos hm]
      · rw [if_neg hm]
        cases findCSOEconItem payload with
        | none => exact hs _
        | some item =>
          simp only
          by_cases hd : defIndexTruthy item = true
          · rw [if_pos hd]; exact hs _
          · rw [if_neg hd]; exact hs _

theorem foldl_settled {cs ip : Nat} {st : PurchaseState}
    (h : st.settled = true) :
    ∀ (l : List PurchaseEvent), l.foldl (processEvent cs ip) st = st := by
  intro l
  induction l with
  | nil => rfl
  | cons e es ih =>
    rw [List.foldl_cons, processEvent_settled h]
    exact ih

theorem processEvent_trigger {cs ip : Nat} {st : PurchaseState} {e : PurchaseEvent}
    (h : st.settled = false) (ht : triggersSettle e = true) :
    processEvent cs ip st e =
      ⟨true, st.cleanups + 1, some (eventOutcome cs ip e)⟩ := by
  have hs : ∀ o, settle st o = ⟨true, st.cleanups + 1, some o⟩ := fun o => by
    unfold settle
    rw [if_neg (by rw [h]; exact Bool.false_ne_true)]
  cases e with
  | timeout => exact hs _
  | error m => exact hs _
  | disconnected => exact hs _
  | receivedFromGC appid msgType payload =>
    simp only [triggersSettle, Bool.and_eq_true, beq_iff_eq] at ht
    obtain ⟨ha, hm⟩ := ht
    subst ha
    subst hm
    simp only [processEvent, eventOutcome]
    rw [if_neg (by omega)]
    rw [if_neg (by omega)]
    cases findCSOEconItem payload with
    | none => exact hs _
    | some item =>
      simp only
      by_cases hd : defIndexTruthy item = true
      · rw [if_pos hd, if_pos hd]; exact hs _
      · rw [if_neg hd, if_neg hd]; exact hs _

theorem processEvent_no_trigger {cs ip : Nat} {st : PurchaseState} {e : PurchaseEvent}
    (ht : triggersSettle e = false) :
    processEvent cs ip st e = st := by
  cases e with
  | timeout => simp [triggersSettle] at ht
  | error m => simp [triggersSettle] at ht
  | disconnected => simp [triggersSettle] at ht
  | receivedFromGC appid msgType payload =>
    simp only [triggersSettle, Bool.and_eq_false_iff, beq_eq_false_iff_ne, ne_eq] at ht
    simp only [processEvent]
    rcases ht with ha | hm
    · rw [if_pos ha]
    · by_cases ha : appid ≠ 730
      · rw [if_pos ha]
      · rw [if_neg ha, if_pos hm]

/-- Full characterisation of a purchase run: cleanup happens exactly
once iff some event settles, the recorded outcome is that of the first
settling event, and the settled flag reflects whether any event
settled. -/
theorem runPurchase_spec (cs ip : Nat) (events : List PurchaseEvent) :
    (runPurchase cs ip events).cleanups =
        (if events.any triggersSettle then 1 else 0) ∧
    (runPurchase cs ip events).outcome =
        (events.find? triggersSettle).map (eventOutcome cs ip) ∧
    (runPurchase cs ip events).settled = events.any triggersSettle := by
  unfold runPurchase
  induction events with
  | nil => simp [initialPurchaseState]
  | cons e es ih =>
    by_cases ht : triggersSettle e = true
    · rw [List.foldl_cons,
        processEvent_trigger (show initialPurchaseState.settled = false from rfl) ht]
      rw [foldl_settled rfl]
      simp [List.any_cons, List.find?_cons, ht, initialPurchaseState]
    · have htf : triggersSettle e = false := by
        revert ht
        cases triggersSettle e <;> simp
      rw [List.foldl_cons, processEvent_no_trigger htf]
      simp only [List.any_cons, List.find?_cons, htf]
      simpa using ih

end ArmoryManager

namespace SessionManager

/-! ## SessionManager: range of extracted balances -/

theorem parseType6Go_range : ∀ (fuel : Nat) (data : List Nat) (off : Int)
    (stars : Option Int) (r : Int),
    (∀ v, stars = some v → 0 ≤ v ∧ v ≤ 5000) →
    parseType6Go fuel data off stars = some (some r) → 0 ≤ r ∧ r ≤ 5000 := by
  intro fuel
  induction fuel with
  | zero => intro data off stars r hinv h; simp [parseType6Go] at h
  | succ f ih =>
    intro data off stars r hinv h
    simp only [parseType6Go] at h
    by_cases hoff : off < (data.length : Int)
    · rw [if_pos hoff] at h
      cases htag : readVarint data off with
      | none =>
        rw [htag] at h
        simp only [Option.some.injEq] at h
        exact hinv r h
      | some p =>
        obtain ⟨tag, tb⟩ := p
        rw [htag] at h
        simp only at h
        by_cases hw : wireTypeOf tag = 0
        · rw [if_pos hw] at h
          cases hv : readVarint data (off + (tb : Int)) with
          | none =>
            rw [hv] at h
            simp only [Option.some.injEq] at h
            exact hinv r h
          | some q =>
            obtain ⟨v, vb⟩ := q
            rw [hv] at h
            simp only at h
            refine ih data _ _ r ?_ h
            intro v2 hv2
            by_cases hc : jsShr tag 3 = 2 ∧ 0 ≤ v ∧ v ≤ 5000
            · rw [if_pos hc] at hv2
              rw [Option.some.injEq] at hv2
              subst hv2
              exact ⟨hc.2.1, hc.2.2⟩
            · rw [if_neg hc] at hv2
              exact hinv v2 hv2
        · rw [if_neg hw] at h
          cases hs : skipByWireType data (off + (tb : Int)) (wireTypeOf tag) with
          | none =>
            rw [hs] at h
            simp only [Option.some.injEq] at h
            exact hinv r h
          | some next =>
            rw [hs] at h
            simp only at h
            exact ih data next stars r hinv h
    · rw [if_neg hoff] at h
      simp only [Option.some.injEq] at h
      exact hinv r h

/-- Every balance extracted by `parseType6ObjectDataForStars` lies in
`0..5000`. -/
theorem parseType6_range {fuel : Nat} {data : List Nat} {r : Int}
    (h : parseType6ObjectDataForStars fuel data = some (some r)) :
    0 ≤ r ∧ r ≤ 5000 := by
  unfold parseType6ObjectDataForStars at h
  by_cases hd : data.length = 0
  · rw [if_pos hd] at h; simp at h
  · rw [if_neg hd] at h
    exact parseType6Go_range fuel data 0 none r (by simp) h

theorem findStarsFinish_range {fuel : Nat} {tId : Option Int}
    {oD : Option (List Nat)} {r : Int}
    (h : findStarsFinish fuel tId oD = some (some r)) : 0 ≤ r ∧ r ≤ 5000 := by
  unfold findStarsFinish at h
  cases tId with
  | none => simp at h
  | some t =>
    cases oD with
    | none => simp at h
    | some d =>
      simp only at h
      by_cases ht : t = 6
      · rw [if_pos ht] at h
        exact parseType6_range h
      · rw [if_neg ht] at h
        simp at h

theorem findStarsGo_range : ∀ (fuel : Nat) (buffer : List Nat) (off : Int)
    (tId : Option Int) (oD : Option (List Nat)) (r : Int),
    findStarsGo fuel buffer off tId oD = some (some r) → 0 ≤ r ∧ r ≤ 5000 := by
  intro fuel
  induction fuel with
  | zero => intro buffer off tId oD r h; simp [findStarsGo] at h
  | succ f ih =>
    intro buffer off tId oD r h
    simp only [findStarsGo] at h
    by_cases hoff : off < (buffer.length : Int)
    · rw [if_pos hoff] at h
      cases htag : readVarint buffer off with
      | none => rw [htag] at h; exact findStarsFinish_range h
      | some p =>
        obtain ⟨tag, tb⟩ := p
        rw [htag] at h
        simp only at h
        by_cases hw0 : wireTypeOf tag = 0
        · rw [if_pos hw0] at h
          cases hv : readVarint buffer (off + (tb : Int)) with
          | none => rw [hv] at h; exact findStarsFinish_range h
          | some q =>
            obtain ⟨v, vb⟩ := q
            rw [hv] at h
            simp only at h
            exact ih buffer _ _ oD r h
        · rw [if_neg hw0] at h
          by_cases hw2 : wireTypeOf tag = 2
          · rw [if_pos hw2] at h
            cases hl : readVarint buffer (off + (tb : Int)) with
            | none => rw [hl] at h; exact findStarsFinish_range h
            | some q =>
              obtain ⟨l, lb⟩ := q
              rw [hl] at h
              simp only at h
              cases hin : findStarsGo f
                  (jsSubarray buffer (off + (tb : Int) + (lb : Int))
                    (off + (tb : Int) + (lb : Int) + l)) 0 none none with
              | none => rw [hin] at h; simp at h
              | some inner =>
                rw [hin] at h
                cases inner with
                | some r0 =>
                  simp only [Option.some.injEq] at h
                  subst h
                  exact ih _ _ _ _ r0 hin
                | none =>
                  simp only at h
                  exact ih buffer _ tId _ r h
          · rw [if_neg hw2] at h
            cases hs : skipByWireType buffer (off + (tb : Int)) (wireTypeOf tag) with
            | none => rw [hs] at h; exact findStarsFinish_range h
            | some next =>
              rw [hs] at h
              simp only at h
              exact ih buffer next tId oD r h
    · rw [if_neg hoff] at h
      exact findStarsFinish_range h

/-- Every balance returned by `findStarsInCache` lies in `0..5000`. -/
theorem findStarsInCache_range {fuel : Nat} {buffer : List Nat} {r : Int}
    (h : findStarsInCache fuel buffer = some (some r)) : 0 ≤ r ∧ r ≤ 5000 :=
  findStarsGo_range fuel buffer 0 none none r h

end SessionManager

namespace SessionManager

/-! ## SessionManager: non-termination of the cache scan

`findStarsInCache` adds the raw decoded length of a length-delimited
field to the offset without any bounds check.  The five length bytes
`80 80 80 80 08` decode (through 32-bit arithmetic) to `-2147483648`,
which drives the offset to `-2147483642`; from a negative offset every
buffer read yields `undefined`, which the varint reader turns into a
zero tag consuming one byte, so the scan crawls back up by two bytes per
iteration until it reaches offset 0 and repeats forever. -/

/-- A six-byte buffer on which the JavaScript `findStarsInCache` never
terminates: field 2, wire type 2, declared length `-2147483648`. -/
def c3Buffer : List Nat := [18, 128, 128, 128, 128, 8]

/-- At a negative offset the Number varint reader immediately sees an
`undefined` byte and breaks with value 0 after one iteration. -/
theorem readVarint_neg {buffer : List Nat} {o : Int} (h : o < 0) :
    readVarint buffer o = some (0, 1) := by
  rw [readVarint]
  simp only [readVarintGo]
  rw [if_neg (by push_cast; omega)]
  have hidx : jsIndex buffer (o + ((0 : Nat) : Int)) = none := by
    unfold jsIndex
    rw [if_neg ?hc]
    case hc =>
      push_cast
      omega
  rw [hidx]
  norm_num
  decide

theorem c3Buffer_length : ((c3Buffer.length : Int)) = 6 := by decide

/-- One scan iteration from a negative even offset: a zero tag and a
zero varint value are consumed, moving the offset up by two. -/
theorem c3_stepNeg (f : Nat) (oD : Option (List Nat)) (o : Int)
    (h1 : o < 0) (h2 : o + 1 < 0) :
    findStarsGo (f + 1) c3Buffer o none oD =
      findStarsGo f c3Buffer (o + 2) none oD := by
  simp only [findStarsGo]
  rw [if_pos (by rw [c3Buffer_length]; omega)]
  rw [readVarint_neg h1]
  simp only
  rw [if_pos (by decide : wireTypeOf 0 = 0)]
  rw [readVarint_neg (show o + ((1 : Nat) : Int) < 0 by push_cast; omega)]
  simp only
  rw [if_neg (by decide : ¬ jsShr 0 3 = 1)]
  rw [show o + ((1 : Nat) : Int) + ((1 : Nat) : Int) = o + 2 by push_cast; ring]

/-- One scan iteration from offset 0 on `c3Buffer`: the field tag 18 and
the length `-2147483648` are decoded, an empty slice is captured, and
the scan continues (after an inner call on the empty slice) from offset
`-2147483642`. -/
theorem c3_step0 (f : Nat) (oD : Option (List Nat)) :
    findStarsGo (f + 1) c3Buffer 0 none oD =
      match findStarsGo f [] 0 none none with
      | none => none
      | some (some r) => some (some r)
      | some none => findStarsGo f c3Buffer (-2147483642) none (some []) := by
  simp only [findStarsGo]
  rw [if_pos (by rw [c3Buffer_length]; omega)]
  rw [show readVarint c3Buffer 0 = some (18, 1) from by decide]
  simp only
  rw [if_neg (by decide : ¬ wireTypeOf 18 = 0)]
  rw [if_pos (by decide : wireTypeOf 18 = 2)]
  rw [show readVarint c3Buffer (0 + ((1 : Nat) : Int)) = some (-2147483648, 5) from by decide]
  simp only
  rw [show jsSubarray c3Buffer (0 + ((1 : Nat) : Int) + ((5 : Nat) : Int))
      (0 + ((1 : Nat) : Int) + ((5 : Nat) : Int) + -2147483648) = [] from by decide]
  rw [if_pos (by decide : jsShr 18 3 = 2 ∨ jsShr 18 3 = 3)]
  rw [show (0 : Int) + ((1 : Nat) : Int) + ((5 : Nat) : Int) + -2147483648 = -2147483642
    from by norm_num]

theorem findStarsGo_nil (g : Nat) :
    findStarsGo g [] 0 none none = none ∨ findStarsGo g [] 0 none none = some none := by
  cases g with
  | zero => left; rfl
  | succ g2 =>
    right
    simp only [findStarsGo]
    rw [if_neg (by decide : ¬ ((0 : Int) < (([] : List Nat).length : Int)))]
    rfl

/-- The scan state keeps cycling: from any offset in the cycle (offset 0
or a negative even offset at distance at most `2147483642`), the scan
never returns, whatever the fuel. -/
theorem findStarsGo_c3_diverges : ∀ (fuel : Nat) (o : Int) (oD : Option (List Nat)),
    (o = 0 ∨ (o < 0 ∧ -2147483642 ≤ o ∧ 2 ∣ o)) →
    findStarsGo fuel c3Buffer o none oD = none := by
  intro fuel
  induction fuel with
  | zero => intro o oD hbad; rfl
  | succ f ih =>
    intro o oD hbad
    rcases hbad with rfl | ⟨hneg, hge, heven⟩
    · rw [c3_step0]
      rcases findStarsGo_nil f with hnil | hnil
      · rw [hnil]
      · rw [hnil]
        exact ih (-2147483642) (some []) (Or.inr ⟨by omega, by omega, ⟨-1073741821, by ring⟩⟩)
    · obtain ⟨m, hm⟩ := heven
      rw [c3_stepNeg f oD o hneg (by omega)]
      rcases eq_or_lt_of_le (show o + 2 ≤ 0 by omega) with hz | hlt
      · exact ih (o + 2) oD (Or.inl hz)
      · exact ih (o + 2) oD (Or.inr ⟨by omega, by omega, ⟨m + 1, by omega⟩⟩)

/-- On `c3Buffer` the cache scan exhausts any amount of fuel: the
JavaScript loop never terminates. -/
theorem findStarsInCache_c3_diverges (fuel : Nat) :
    findStarsInCache fuel c3Buffer = none :=
  findStarsGo_c3_diverges fuel 0 none (Or.inl rfl)

end SessionManager

namespace SessionManager

/-- Reading a single-byte varint at offset 0. -/
theorem readVarint_head {b : Nat} (hb : b < 128) (rest : List Nat) :
    readVarint (b :: rest) 0 = some ((b : Int), 1) := by
  have hsingle : ArmoryManager.encodeVarint b = [b] := by
    rw [ArmoryManager.encodeVarint_eq, if_neg (by omega)]
  have h := sessionReadVarintGo_encode b [] rest ((b :: rest).length + 1) 0 0 0 0
    (by rw [hsingle]; simp) (by omega) (by simpa using by omega) (by simp)
  rw [hsingle] at h
  simp only [List.nil_append, List.singleton_append] at h
  rw [readVarint]
  simpa using h

/-- A varint field 2 with an in-range value at the end of the scan
overwrites whatever `stars` value was accumulated before: the loop
returns the trailing value regardless of the prior state. -/
theorem parseType6Go_lastWins (f : Nat) (stars0 : Option Int) (n : Nat)
    (hn : n ≤ 5000) :
    parseType6Go (f + 1 + 1) (16 :: ArmoryManager.encodeVarint n) 0 stars0 =
      some (some (n : Int)) := by
  have hlen := ArmoryManager.encodeVarint_length_pos n
  simp only [parseType6Go]
  rw [if_pos (show (0 : Int) < ((16 :: ArmoryManager.encodeVarint n).length : Int) by
    simp only [List.length_cons]
    push_cast
    omega)]
  rw [readVarint_head (by norm_num) _]
  simp only
  rw [if_pos (by decide : wireTypeOf ((16 : Nat) : Int) = 0)]
  have hv : readVarint (16 :: ArmoryManager.encodeVarint n) ((0 : Int) + ((1 : Nat) : Int)) =
      some ((n : Int), (ArmoryManager.encodeVarint n).length) := by
    rw [readVarint]
    have h := sessionReadVarintGo_encode n [16] []
      ((16 :: ArmoryManager.encodeVarint n).length + 1) 0 0 0 (0 + ((1 : Nat) : Int))
      (by simp only [List.length_cons]; omega) (by omega) (by simpa using by omega) (by simp)
    simp only [List.append_nil, List.singleton_append] at h
    simpa using h
  rw [hv]
  simp only
  rw [if_neg (show ¬ ((0 : Int) + ((1 : Nat) : Int) + ((ArmoryManager.encodeVarint n).length : Int) <
      ((16 :: ArmoryManager.encodeVarint n).length : Int)) by
    simp only [List.length_cons]
    push_cast
    omega)]
  rw [if_pos ⟨by decide, by positivity, by exact_mod_cast hn⟩]

end SessionManager

namespace ArmoryManager

/-- Transport a `readField` result along arithmetic identities for the
offsets. -/
theorem readField_eq_of (buffer : List Nat) {o o2 n n2 : Nat} {fn : Int}
    {wt : Nat} {v : FieldValue}
    (h : readField buffer o2 = some ⟨fn, wt, v, n2⟩) (ho : o = o2) (hn : n = n2) :
    readField buffer o = some ⟨fn, wt, v, n⟩ := by
  rw [ho, hn]
  exact h

/-- Sequential decode of the purchase body: four varint fields numbered
1..4 carrying `11, armoryId, stars, price`, consuming the whole buffer. -/
theorem encodeRedeemBody_decodes (a s p : Nat) :
    readField (encodeRedeemBody a s p) 0 = some ⟨1, 0, .int 11, 2⟩ ∧
    readField (encodeRedeemBody a s p) 2 =
      some ⟨2, 0, .int a, 3 + (encodeVarint a).length⟩ ∧
    readField (encodeRedeemBody a s p) (3 + (encodeVarint a).length) =
      some ⟨3, 0, .int s, 3 + (encodeVarint a).length + 1 + (encodeVarint s).length⟩ ∧
    readField (encodeRedeemBody a s p)
        (3 + (encodeVarint a).length + 1 + (encodeVarint s).length) =
      some ⟨4, 0, .int p,
        3 + (encodeVarint a).length + 1 + (encodeVarint s).length + 1 +
          (encodeVarint p).length⟩ ∧
    3 + (encodeVarint a).length + 1 + (encodeVarint s).length + 1 +
        (encodeVarint p).length = (encodeRedeemBody a s p).length := by
  have h11 : encodeVarint 11 = [11] := by decide
  have hB : encodeRedeemBody a s p =
      [8] ++ [11] ++ [16] ++ encodeVarint a ++ [24] ++ encodeVarint s ++
        [32] ++ encodeVarint p := by
    rw [encodeRedeemBody_eq, h11]
  refine ⟨?_, ?_, ?_, ?_, ?_⟩
  · have h1 := readField_tag_varint []
      ([16] ++ encodeVarint a ++ [24] ++ encodeVarint s ++ [32] ++ encodeVarint p)
      8 11 (by norm_num) (by norm_num)
    rw [h11] at h1
    rw [hB]
    simpa using h1
  · have h2 := readField_tag_varint [8, 11]
      ([24] ++ encodeVarint s ++ [32] ++ encodeVarint p)
      16 a (by norm_num) (by norm_num)
    rw [hB]
    simpa using h2
  · have h3 := readField_tag_varint ([8, 11, 16] ++ encodeVarint a)
      ([32] ++ encodeVarint p)
      24 s (by norm_num) (by norm_num)
    simp at h3
    rw [hB]
    simp only [List.cons_append, List.nil_append, List.append_assoc]
    exact readField_eq_of _ h3 (by omega) (by omega)
  · have h4 := readField_tag_varint
      ([8, 11, 16] ++ encodeVarint a ++ [24] ++ encodeVarint s) []
      32 p (by norm_num) (by norm_num)
    simp at h4
    rw [hB]
    simp only [List.cons_append, List.nil_append, List.append_assoc]
    exact readField_eq_of _ h4 (by omega) (by omega)
  · rw [hB]
    simp only [List.length_append, List.length_cons, List.length_nil]

end ArmoryManager

/-! ## Claim theorems -/

/-- Test buffer for the economy-item extractor: field4 = varint 501,
field12 = message with field1 = varint 6 and field3 = bytes DE AD BE EF. -/
def c4Buffer : List Nat := [32, 245, 3, 98, 8, 8, 6, 26, 4, 222, 173, 190, 239]

/-- Two sibling length-delimited fields, each containing an economy item
(definition indices 501 and 502): the first in depth-first order wins. -/
def c4TwoItems : List Nat := [10, 3, 32, 245, 3, 10, 3, 32, 246, 3]

/-- Balance cache: discriminator 6 (field 1), payload (field 2) holding
field2 = varint 1200. -/
def c5FoundBuffer : List Nat := [8, 6, 18, 3, 16, 176, 9]

/-- Balance cache: discriminator 6, payload holding field2 = varint 7000
(out of range). -/
def c5RejectBuffer : List Nat := [8, 6, 18, 3, 16, 216, 54]

/-- Top level: field4 = varint 0 followed by field4 = varint 5. -/
def c8ZeroThenFive : List Nat := [32, 0, 32, 5]

/-- Top level: field4 = varint 0, then field1 (length-delimited)
containing field4 = varint 7. -/
def c8ZeroThenNested : List Nat := [32, 0, 10, 2, 32, 7]

/-- A length-delimited field whose contents `0x80` are a truncated
varint, followed by a sibling length-delimited field containing
field4 = varint 7. -/
def c9MalformedBranch : List Nat := [10, 1, 128, 18, 2, 32, 7]

/-- Balance cache with discriminator 6 and two sibling field-3 payloads:
the first holds field2 = varint 100, the second field2 = varint 200. -/
def c10TwoPayloads : List Nat := [8, 6, 26, 2, 16, 100, 26, 3, 16, 200, 1]

/-- C1: as stated the claim is false: the `SessionManager` Number-based
varint decoder, applied to the encoding of 2^35 = 34359738368 (six
bytes, five of them continuation bytes), returns 8 — the 32-bit shift
`1 << 35` wraps to `1 << 3` — while the BigInt decoder recovers the
value exactly. -/
theorem C1_counterexample :
    SessionManager.readVarint (ArmoryManager.encodeVarint 34359738368) 0 =
        some (8, 6) ∧
    (8 : Int) ≠ 34359738368 ∧
    ArmoryManager.readVarint (ArmoryManager.encodeVarint 34359738368) 0 =
        some (34359738368, 6) := by
  refine ⟨by decide, by decide, by decide⟩

/-- C1 (amended): decoding the encoder's output at offset 0 returns
exactly `n` and consumes the whole buffer for the BigInt decoder
(`ArmoryManager.readVarint`) for every `n`, and for the Number-based
decoder (`SessionManager.readVarint`) exactly as long as `n < 2^31`,
below which its 32-bit accumulation is exact. -/
theorem C1_varint_roundtrip :
    (∀ n : Nat, ArmoryManager.readVarint (ArmoryManager.encodeVarint n) 0 =
      some (n, (ArmoryManager.encodeVarint n).length)) ∧
    (∀ n : Nat, n < 2147483648 →
      SessionManager.readVarint (ArmoryManager.encodeVarint n) 0 =
        some ((n : Int), (ArmoryManager.encodeVarint n).length)) :=
  ⟨fun n => ArmoryManager.readVarint_encodeVarint n,
   fun _ h => sessionReadVarint_encode h⟩

theorem C1_witness :
    ArmoryManager.readVarint (ArmoryManager.encodeVarint 34359738368) 0 =
        some (34359738368, (ArmoryManager.encodeVarint 34359738368).length) ∧
    SessionManager.readVarint (ArmoryManager.encodeVarint 1200) 0 =
        some (((1200 : Nat) : Int), (ArmoryManager.encodeVarint 1200).length) :=
  ⟨C1_varint_roundtrip.1 34359738368, C1_varint_roundtrip.2 1200 (by norm_num)⟩

/-- C2: the decode layer never reaches outside the buffer: a successful
varint decode consumes only in-bounds bytes, a varint that ends
mid-continuation-sequence decodes to `null` (for both decoders), and a
successful field read returns `nextOffset ≤ buffer.length` with one of
the four known wire types (any other wire type yields `null`). -/
theorem C2_decode_safety :
    (∀ (buffer : List Nat) (offset v k : Nat),
      ArmoryManager.readVarint buffer offset = some (v, k) →
        offset + k ≤ buffer.length) ∧
    (∀ (buffer : List Nat) (offset : Nat),
      (∀ b ∈ buffer.drop offset, b &&& 128 ≠ 0) →
        ArmoryManager.readVarint buffer offset = none) ∧
    (∀ (buffer : List Nat) (offset : Nat) (fld : ArmoryManager.WireField),
      ArmoryManager.readField buffer offset = some fld →
        fld.nextOffset ≤ buffer.length ∧
        (fld.wireType = 0 ∨ fld.wireType = 1 ∨ fld.wireType = 2 ∨ fld.wireType = 5)) :=
  ⟨fun _ _ _ _ h => (ArmoryManager.readVarint_bounds h).2,
   fun _ _ h => ArmoryManager.readVarint_truncated h,
   fun _ _ _ h =>
     ⟨(ArmoryManager.readField_bounds h).2.1, (ArmoryManager.readField_bounds h).2.2.1⟩⟩

theorem C2_witness :
    0 + 1 ≤ ([5] : List Nat).length ∧
    ArmoryManager.readVarint [128] 0 = none ∧
    ((2 : Nat) ≤ ([8, 1] : List Nat).length ∧
      ((0 : Nat) = 0 ∨ (0 : Nat) = 1 ∨ (0 : Nat) = 2 ∨ (0 : Nat) = 5)) :=
  ⟨C2_decode_safety.1 [5] 0 5 1 (by decide),
   C2_decode_safety.2.1 [128] 0 (by decide),
   C2_decode_safety.2.2 [8, 1] 0 ⟨1, 0, .int 1, 2⟩ (by decide)⟩

/-- C3: the balance-cache scan does not terminate on every buffer.  On
the six-byte buffer `12 80 80 80 80 08` the nested length prefix decodes
(through 32-bit arithmetic) to `-2147483648`; the offset becomes
negative and the scan cycles forever, exhausting any fuel.  (The
economy-item searches on the `ArmoryManager` side are bounds-checked and
do terminate; see the C2 theorem and the strict-descent lemma
`ArmoryManager.readField_bounds`.) -/
theorem C3_cache_scan_diverges :
    ∀ fuel : Nat,
      SessionManager.findStarsInCache fuel SessionManager.c3Buffer = none :=
  SessionManager.findStarsInCache_c3_diverges

/-- C4: on the buffer encoding field4 = varint 501 and field12 = message
(field1 = varint 6, field3 = bytes DEADBEEF) the extractor returns the
item 501 with the single attribute (6, "deadbeef"); in general a parsed
item is accepted exactly when its definition index is set and nonzero
(this holds for every item the search returns, at any fuel), and the
first accepted item in depth-first order wins. -/
theorem C4_econ_item :
    ArmoryManager.findCSOEconItem c4Buffer =
        some ⟨some 501, [⟨some 6, some "deadbeef"⟩]⟩ ∧
    (∀ (buffer : List Nat) (item : ArmoryManager.EconItem),
      ArmoryManager.parseCSOEconItem buffer = some item →
        ∃ d, item.def_index = some d ∧ 0 < d) ∧
    (∀ (depth : Nat) (buffer : List Nat) (item : ArmoryManager.EconItem),
      ArmoryManager.findCSOEconItemF depth buffer = some item →
        ∃ d, item.def_index = some d ∧ 0 < d) ∧
    ArmoryManager.findCSOEconItem c4TwoItems = some ⟨some 501, []⟩ :=
  ⟨by decide,
   fun _ _ h => ArmoryManager.parseCSOEconItem_accepted h,
   fun depth buffer item h => ArmoryManager.findCSOEconItemF_accepted depth buffer item h,
   by decide⟩

theorem C4_witness :
    ∃ d, (⟨some 501, [⟨some 6, some "deadbeef"⟩]⟩ : ArmoryManager.EconItem).def_index =
        some d ∧ 0 < d :=
  C4_econ_item.2.1 c4Buffer ⟨some 501, [⟨some 6, some "deadbeef"⟩]⟩ (by decide)

/-- C5: every balance the cache extractor returns lies in 0..5000; with
discriminator 6 and a payload holding field2 = varint 1200 it returns
1200, and with field2 = varint 7000 the candidate is discarded and the
result is "not found". -/
theorem C5_balance_range :
    (∀ (fuel : Nat) (buffer : List Nat) (r : Int),
      SessionManager.findStarsInCache fuel buffer = some (some r) →
        0 ≤ r ∧ r ≤ 5000) ∧
    SessionManager.findStarsInCache 100 c5FoundBuffer = some (some 1200) ∧
    SessionManager.findStarsInCache 100 c5RejectBuffer = some none :=
  ⟨fun _ _ _ h => SessionManager.findStarsInCache_range h, by decide, by decide⟩

theorem C5_witness : 0 ≤ (1200 : Int) ∧ (1200 : Int) ≤ 5000 :=
  C5_balance_range.1 100 c5FoundBuffer 1200 (by decide)

/-- C6: for all inputs the purchase-body encoder emits exactly four
consecutive (tag, varint) pairs with field numbers 1..4 carrying
11, armoryId, stars, price, decoding sequentially to exactly those
fields and consuming the whole buffer; in particular for
(42, 100, 25) the bytes are `08 0B 10 2A 18 64 20 19` and decode as
(1,11), (2,42), (3,100), (4,25). -/
theorem C6_redeem_body :
    (∀ a s p : Nat,
      ArmoryManager.readField (ArmoryManager.encodeRedeemBody a s p) 0 =
          some ⟨1, 0, .int 11, 2⟩ ∧
      ArmoryManager.readField (ArmoryManager.encodeRedeemBody a s p) 2 =
          some ⟨2, 0, .int a, 3 + (ArmoryManager.encodeVarint a).length⟩ ∧
      ArmoryManager.readField (ArmoryManager.encodeRedeemBody a s p)
          (3 + (ArmoryManager.encodeVarint a).length) =
        some ⟨3, 0, .int s, 3 + (ArmoryManager.encodeVarint a).length + 1 +
          (ArmoryManager.encodeVarint s).length⟩ ∧
      ArmoryManager.readField (ArmoryManager.encodeRedeemBody a s p)
          (3 + (ArmoryManager.encodeVarint a).length + 1 +
            (ArmoryManager.encodeVarint s).length) =
        some ⟨4, 0, .int p, 3 + (ArmoryManager.encodeVarint a).length + 1 +
          (ArmoryManager.encodeVarint s).length + 1 +
          (ArmoryManager.encodeVarint p).length⟩ ∧
      3 + (ArmoryManager.encodeVarint a).length + 1 +
          (ArmoryManager.encodeVarint s).length + 1 +
          (ArmoryManager.encodeVarint p).length =
        (ArmoryManager.encodeRedeemBody a s p).length) ∧
    ArmoryManager.encodeRedeemBody 42 100 25 = [8, 11, 16, 42, 24, 100, 32, 25] ∧
    ArmoryManager.readField (ArmoryManager.encodeRedeemBody 42 100 25) 0 =
        some ⟨1, 0, .int 11, 2⟩ ∧
    ArmoryManager.readField (ArmoryManager.encodeRedeemBody 42 100 25) 2 =
        some ⟨2, 0, .int 42, 4⟩ ∧
    ArmoryManager.readField (ArmoryManager.encodeRedeemBody 42 100 25) 4 =
        some ⟨3, 0, .int 100, 6⟩ ∧
    ArmoryManager.readField (ArmoryManager.encodeRedeemBody 42 100 25) 6 =
        some ⟨4, 0, .int 25, 8⟩ :=
  ⟨fun a s p => ArmoryManager.encodeRedeemBody_decodes a s p,
   by decide, by decide, by decide, by decide, by decide⟩

/-- C7: a purchase settles exactly once.  Folding any sequence of
completion events over the settle state: cleanup runs at most once (and
exactly once iff some event settles), the recorded outcome is that of
the first settling event, any event arriving after settlement leaves the
state unchanged, and a run whose only settling event is the trailing
timeout settles exactly once as the timeout error. -/
theorem C7_settle_once :
    ∀ (cs ip : Nat) (events : List ArmoryManager.PurchaseEvent),
      (ArmoryManager.runPurchase cs ip events).cleanups ≤ 1 ∧
      (ArmoryManager.runPurchase cs ip events).outcome =
        (events.find? ArmoryManager.triggersSettle).map
          (ArmoryManager.eventOutcome cs ip) ∧
      (∀ (st : ArmoryManager.PurchaseState) (e : ArmoryManager.PurchaseEvent),
        st.settled = true → ArmoryManager.processEvent cs ip st e = st) ∧
      (∀ pre : List ArmoryManager.PurchaseEvent,
        (∀ e ∈ pre, ArmoryManager.triggersSettle e = false) →
        ArmoryManager.runPurchase cs ip (pre ++ [ArmoryManager.PurchaseEvent.timeout]) =
          ⟨true, 1, some (.err "Purchase timeout")⟩) := by
  intro cs ip events
  obtain ⟨hc, ho, hs⟩ := ArmoryManager.runPurchase_spec cs ip events
  refine ⟨?_, ho, ?_, ?_⟩
  · rw [hc]
    by_cases h : events.any ArmoryManager.triggersSettle <;> simp [h]
  · intro st e h
    exact ArmoryManager.processEvent_settled h
  · intro pre hpre
    obtain ⟨hc2, ho2, hs2⟩ :=
      ArmoryManager.runPurchase_spec cs ip (pre ++ [ArmoryManager.PurchaseEvent.timeout])
    have hany : (pre ++ [ArmoryManager.PurchaseEvent.timeout]).any
        ArmoryManager.triggersSettle = true := by
      rw [List.any_append]
      simp [ArmoryManager.triggersSettle]
    have hfind : (pre ++ [ArmoryManager.PurchaseEvent.timeout]).find?
        ArmoryManager.triggersSettle = some ArmoryManager.PurchaseEvent.timeout := by
      rw [List.find?_append]
      have hnone : pre.find? ArmoryManager.triggersSettle = none :=
        List.find?_eq_none.mpr (fun e he => by rw [hpre e he]; exact Bool.false_ne_true)
      rw [hnone]
      simp [ArmoryManager.triggersSettle]
    have heta : ArmoryManager.runPurchase cs ip (pre ++ [ArmoryManager.PurchaseEvent.timeout]) =
        ⟨(ArmoryManager.runPurchase cs ip (pre ++ [ArmoryManager.PurchaseEvent.timeout])).settled,
         (ArmoryManager.runPurchase cs ip (pre ++ [ArmoryManager.PurchaseEvent.timeout])).cleanups,
         (ArmoryManager.runPurchase cs ip (pre ++ [ArmoryManager.PurchaseEvent.timeout])).outcome⟩ :=
      rfl
    rw [heta, hs2, hc2, ho2, hany, hfind]
    simp [ArmoryManager.eventOutcome]

theorem C7_witness :
    ArmoryManager.runPurchase 100 25 [ArmoryManager.PurchaseEvent.timeout] =
      ⟨true, 1, some (.err "Purchase timeout")⟩ :=
  (C7_settle_once 100 25 []).2.2.2 [] (by simp)

/-- C8: as stated the claim is false: on `[0x20, 0x00, 0x20, 0x05]` a
strictly positive top-level field-4 varint (value 5, decodable at
offset 2) exists, yet the deep search reports "not found" — the direct
pass only considers the first field-4 varint (here 0) and the deep loop
only recurses into length-delimited fields, never revisiting later
top-level varints. -/
theorem C8_counterexample :
    ArmoryManager.findDefIndexDeep c8ZeroThenFive = none ∧
    ArmoryManager.readField c8ZeroThenFive 2 = some ⟨4, 0, .int 5, 4⟩ ∧
    (0 : Nat) < 5 := by
  refine ⟨by decide, by decide, by decide⟩

/-- C8 (amended): the deep definition-index search returns only strictly
positive values (at any fuel); a first top-level field-4 value of 0 is
treated as absent and the search then descends into length-delimited
fields, where a strictly positive field 4 is still found — but a later
top-level field-4 varint after a zero one is not reconsidered. -/
theorem C8_defindex_search :
    (∀ (depth : Nat) (buffer : List Nat) (d : Nat),
      ArmoryManager.findDefIndexDeepF depth buffer = some d → 0 < d) ∧
    ArmoryManager.findDefIndexDeep c8ZeroThenNested = some 7 :=
  ⟨fun depth buffer d h => ArmoryManager.findDefIndexDeepF_pos depth buffer d h,
   by decide⟩

theorem C8_witness : (0 : Nat) < 7 :=
  C8_defindex_search.1 7 c8ZeroThenNested 7 (by decide)

/-- C9: a parse failure inside a nested length-delimited region is
non-fatal: when the recursive search of a well-delimited field's
contents produces nothing, both deep walks continue with the next
sibling field; concretely, a match sitting after a malformed branch is
still found. -/
theorem C9_nested_failure_nonfatal :
    (∀ (recurse : List Nat → Option Nat) (fuel : Nat)
        (buffer bs : List Nat) (offset : Nat) (fld : ArmoryManager.WireField),
      offset < buffer.length →
      ArmoryManager.readField buffer offset = some fld →
      fld.wireType = 2 → fld.value = .bytes bs → 0 < bs.length →
      recurse bs = none →
      ArmoryManager.findDefIndexDeepGo recurse (fuel + 1) buffer offset =
        ArmoryManager.findDefIndexDeepGo recurse fuel buffer fld.nextOffset) ∧
    (∀ (recurse : List Nat → Option ArmoryManager.EconItem) (fuel : Nat)
        (buffer bs : List Nat) (offset : Nat) (fld : ArmoryManager.WireField),
      offset < buffer.length →
      ArmoryManager.readField buffer offset = some fld →
      fld.wireType = 2 → fld.value = .bytes bs → 0 < bs.length →
      recurse bs = none →
      ArmoryManager.findCSOEconItemGo recurse (fuel + 1) buffer offset =
        ArmoryManager.findCSOEconItemGo recurse fuel buffer fld.nextOffset) ∧
    ArmoryManager.findDefIndexDeep c9MalformedBranch = some 7 :=
  ⟨fun _ _ _ _ _ _ hoff hf hw hv hne hrec =>
      ArmoryManager.findDefIndexDeepGo_resume hoff hf hw hv hne hrec,
   fun _ _ _ _ _ _ hoff hf hw hv hne hrec =>
      ArmoryManager.findCSOEconItemGo_resume hoff hf hw hv hne hrec,
   by decide⟩

theorem C9_witness :
    ArmoryManager.findDefIndexDeepGo (fun _ => none) 1 c9MalformedBranch 0 =
      ArmoryManager.findDefIndexDeepGo (fun _ => none) 0 c9MalformedBranch 3 :=
  C9_nested_failure_nonfatal.1 (fun _ => none) 0 c9MalformedBranch [128] 0
    ⟨1, 2, .bytes [128], 3⟩ (by decide) (by decide) rfl rfl (by decide) rfl

/-- C10: later occurrences overwrite earlier ones in the balance-cache
extractor: a trailing in-range field-2 varint determines the parse
result regardless of any previously accumulated value; with two field-2
varints (100 then 200) in a type-6 payload the result is 200; and with
two sibling field-3 payloads at one nesting level the last one becomes
the candidate, so the cache scan returns its value (200), not the
first (100). -/
theorem C10_last_wins :
    (∀ (fuel : Nat) (stars0 : Option Int) (n : Nat), n ≤ 5000 →
      SessionManager.parseType6Go (fuel + 1 + 1)
          (16 :: ArmoryManager.encodeVarint n) 0 stars0 = some (some (n : Int))) ∧
    SessionManager.parseType6ObjectDataForStars 10 [16, 100, 16, 200, 1] =
        some (some 200) ∧
    SessionManager.findStarsInCache 100 c10TwoPayloads = some (some 200) :=
  ⟨fun fuel stars0 n hn => SessionManager.parseType6Go_lastWins fuel stars0 n hn,
   by decide, by decide⟩

theorem C10_witness :
    SessionManager.parseType6Go 3 (16 :: ArmoryManager.encodeVarint 1200) 0 (some 7) =
      some (some (1200 : Int)) :=
  C10_last_wins.1 1 (some 7) 1200 (by norm_num)
